import Mathlib

/-!
Verification development for the pantias form-builder repository.

The definitions below are a shallow embedding of the TypeScript core:

* the Question/Option data model (src/src/types/index.ts),
* the visibility evaluator, live-entry answer updates, submit-time
  validation and response assembly (the FormPreview component, which the
  repository ships in two variants; where the variants differ both are
  embedded, suffixed V1 for the variant that filters and clears
  sub-question state and V2 for the variant that does not),
* the tree linearizer reorganizeQuestions, the save pipeline
  handleSaveForm, and the recursive delete handleDeleteQuestion
  (src/src/components/forms/FormBuilder.tsx).

JavaScript answer objects are embedded as insertion-ordered association
lists with object-style set/delete/lookup, and JavaScript truthiness and
strict equality are modelled explicitly.  Recursions that are unbounded
in the source (they terminate on the tree-shaped inputs the application
builds) are given explicit fuel; the fuel is chosen large enough that it
never runs out on inputs where the source terminates.
-/

namespace Pantias

/-- The closed enumeration of question types (QuestionType in types/index.ts). -/
inductive QuestionType where
  | text
  | number
  | select
  | multiselect
  | date
  | boolean
  deriving DecidableEq, Repr

/-- An option of a select/multiselect question (Option in types/index.ts).
The nested subQuestions field of the TypeScript interface is never used by
the components embedded here (they use the flat parentId representation),
so it is omitted. -/
structure Opt where
  id : String
  text : String
  deriving DecidableEq, Repr

/-- A question node (Question in types/index.ts).  Optional TypeScript
fields become Option; powerBIFieldName is carried for completeness. -/
structure Question where
  id : String
  text : String
  type : QuestionType
  required : Bool
  options : Option (List Opt) := none
  includeInPowerBI : Bool := false
  powerBIFieldName : Option String := none
  parentId : Option String := none
  parentOptionId : Option String := none
  deriving DecidableEq, Repr

/-- A form (Form in types/index.ts). -/
structure Form where
  id : String
  name : String
  description : String
  questions : List Question
  createdAt : Nat
  updatedAt : Nat
  version : Nat
  deriving DecidableEq, Repr

/-- A runtime answer value: the JavaScript values that can sit in the
responses record (string, number, boolean, array of option ids, null).
Absence (undefined) is modelled by Option.none at use sites. -/
inductive Value where
  | str : String → Value
  | num : Int → Value
  | bool : Bool → Value
  | arr : List String → Value
  | null : Value
  deriving DecidableEq, Repr

/-- One answered question inside a submitted response
(QuestionResponse in types/index.ts). -/
structure QuestionResponse where
  questionId : String
  value : Value
  deriving DecidableEq, Repr

/-- A persisted submission (FormResponse in types/index.ts).  createdAt is
the ISO timestamp string that FormContext.saveResponse attaches. -/
structure FormResponse where
  id : String
  formId : String
  formVersion : Nat
  responses : List QuestionResponse
  createdAt : String
  updatedOffline : Bool
  deriving DecidableEq, Repr

/-- JavaScript truthiness of an optional string field such as parentId:
undefined and the empty string are falsy. -/
def truthyS : Option String → Bool
  | none => false
  | some s => !(s = "")

/-- JavaScript truthiness of a possibly-absent answer value.  Arrays are
always truthy (even when empty); the empty string, 0, false and null are
falsy. -/
def truthyV : Option Value → Bool
  | none => false
  | some (.str s) => !(s = "")
  | some (.num n) => !(n = 0)
  | some (.bool b) => b
  | some (.arr _) => true
  | some .null => false

/-- The live answer state of the form: a JavaScript object keyed by
question id, embedded as an insertion-ordered association list with
unique keys maintained by objSet/objDel. -/
abbrev Responses := List (String × Value)

/-- Object property read: m[k], none when the key is absent. -/
def objGet {α : Type} (m : List (String × α)) (k : String) : Option α :=
  (m.find? (fun p => p.1 = k)).map (fun p => p.2)

/-- Object property write: updates the value in place when the key exists,
otherwise appends it (JavaScript insertion order). -/
def objSet {α : Type} (m : List (String × α)) (k : String) (v : α) :
    List (String × α) :=
  if (m.find? (fun p => p.1 = k)).isSome then
    m.map (fun p => if p.1 = k then (k, v) else p)
  else
    m ++ [(k, v)]

/-- Object property delete. -/
def objDel {α : Type} (m : List (String × α)) (k : String) :
    List (String × α) :=
  m.filter (fun p => !(p.1 = k))

/-- String-keyed error object of validateForm, same embedding. -/
abbrev Errors := List (String × String)

/-- JavaScript strict equality between the stored answer of the parent
question (possibly undefined) and the parentOptionId field of a child
(possibly undefined): true when both are undefined, or when the answer is
the very string.  No other value shape compares equal to a string. -/
def strictEqAnswerOpt : Option Value → Option String → Bool
  | none, none => true
  | some (.str s), some t => s = t
  | _, _ => false

/-- Visibility of one question under the current answers, exactly as the
filter predicate of getVisibleQuestions (FormPreview, both variants; the
second variant adds an early return for parents that are not
select/multiselect, which the first variant reaches through its final
return false, so the two predicates agree):

* a question with falsy parentId is always visible;
* otherwise the parent is looked up by id in the full question list and
  the question is visible iff the parent was found and the answer stored
  for the parent selects this question, where
  - a select parent selects it iff responses[parent.id] === parentOptionId,
  - a multiselect parent selects it iff the stored answer is an array
    containing parentOptionId,
  - any other parent type never selects it. -/
def isVisible (questions : List Question) (responses : Responses)
    (q : Question) : Bool :=
  match q.parentId with
  | none => true
  | some pid =>
    if pid = "" then true
    else
      match questions.find? (fun p => p.id = pid) with
      | none => false
      | some parent =>
        if parent.type = .select then
          strictEqAnswerOpt (objGet responses parent.id) q.parentOptionId
        else if parent.type = .multiselect then
          match objGet responses parent.id with
          | some (.arr l) =>
            match q.parentOptionId with
            | some t => l.contains t
            | none => false
          | _ => false
        else false

/-- getVisibleQuestions of FormPreview: the questions of the form filtered
by the visibility predicate, in form order. -/
def getVisibleQuestions (questions : List Question) (responses : Responses) :
    List Question :=
  questions.filter (isVisible questions responses)

/-- One step of validateForm over a visible question: a required question
whose value is undefined, null or the empty string gets a field-indexed
error; a required question whose value is an empty array gets one too. -/
def validateStep (responses : Responses) (errs : Errors) (q : Question) :
    Errors :=
  if q.required then
    let v := objGet responses q.id
    let errs1 :=
      match v with
      | none => objSet errs q.id "Este campo es obligatorio"
      | some .null => objSet errs q.id "Este campo es obligatorio"
      | some (.str s) =>
        if s = "" then objSet errs q.id "Este campo es obligatorio" else errs
      | _ => errs
    match v with
    | some (.arr l) =>
      if l.isEmpty then objSet errs1 q.id "Selecciona al menos una opción"
      else errs1
    | _ => errs1
  else errs

/-- validateForm of FormPreview (identical in both variants): walks the
visible questions and collects a field-indexed error for every required
visible question whose value is missing or an empty array. -/
def validateForm (questions : List Question) (responses : Responses) :
    Errors :=
  (getVisibleQuestions questions responses).foldl (validateStep responses) []

/-- The sub-question clearing loop of handleInputChange (first FormPreview
variant): after the parent value is written, every question whose parentId
is the changed id has its stored value deleted, provided that stored value
is truthy. -/
def clearSubQuestions (questions : List Question) (questionId : String)
    (m : Responses) : Responses :=
  (questions.filter (fun q => q.parentId = some questionId)).foldl
    (fun acc sub => if truthyV (objGet acc sub.id) then objDel acc sub.id else acc)
    m

/-- handleInputChange of the first FormPreview variant: stores the new
value, then, when the changed question is a select or multiselect, clears
the stored values of its direct sub-questions. -/
def handleInputChange (questions : List Question) (responses : Responses)
    (questionId : String) (value : Value) : Responses :=
  let newResponses := objSet responses questionId value
  match questions.find? (fun q => q.id = questionId) with
  | some q =>
    if q.type = .select ∨ q.type = .multiselect then
      clearSubQuestions questions questionId newResponses
    else newResponses
  | none => newResponses

/-- handleInputChange of the second FormPreview variant: stores the new
value and clears nothing. -/
def handleInputChangeV2 (responses : Responses) (questionId : String)
    (value : Value) : Responses :=
  objSet responses questionId value

/-- The response list assembled by handleSubmit in the first FormPreview
variant: the entries of the answer object whose key resolves (by find
over the question list) to a question that is in the visible set. -/
def questionResponsesV1 (questions : List Question) (responses : Responses) :
    List QuestionResponse :=
  (responses.filter (fun kv =>
      match questions.find? (fun q => q.id = kv.1) with
      | some q => isVisible questions responses q
      | none => false)).map
    (fun kv => { questionId := kv.1, value := kv.2 })

/-- The response list assembled by handleSubmit in the second FormPreview
variant: every entry of the answer object, with no visibility filter. -/
def questionResponsesV2 (responses : Responses) : List QuestionResponse :=
  responses.map (fun kv => { questionId := kv.1, value := kv.2 })

/-- The record built by FormContext.saveResponse around the submitted
data: a fresh identifier and the current ISO timestamp are attached to
the form id, pinned form version and assembled responses coming from
handleSubmit. -/
def saveResponseRecord (newId now formId : String) (formVersion : Nat)
    (qrs : List QuestionResponse) : FormResponse :=
  { id := newId
    formId := formId
    formVersion := formVersion
    responses := qrs
    createdAt := now
    updatedOffline := false }

/-- handleSubmit of the first FormPreview variant composed with
FormContext.saveResponse: none when validation fails (the submission is
blocked), otherwise the persisted FormResponse, whose responses list is
filtered by visibility.  newId and now stand for the uuid and clock reads
performed by saveResponse. -/
def handleSubmitV1 (form : Form) (formId : String) (responses : Responses)
    (newId now : String) : Option FormResponse :=
  if validateForm form.questions responses = [] then
    some (saveResponseRecord newId now formId form.version
      (questionResponsesV1 form.questions responses))
  else none

/-- handleSubmit of the second FormPreview variant composed with
FormContext.saveResponse: same gate, but every answer entry is emitted. -/
def handleSubmitV2 (form : Form) (formId : String) (responses : Responses)
    (newId now : String) : Option FormResponse :=
  if validateForm form.questions responses = [] then
    some (saveResponseRecord newId now formId form.version
      (questionResponsesV2 responses))
  else none

/-- The options array of a question, as iterated by reorganizeQuestions:
an absent options field contributes no iterations, exactly like an empty
array. -/
def optionsOf (q : Question) : List Opt :=
  q.options.getD []

/-- The main questions of the working set: falsy parentId
(reorganizeQuestions). -/
def mains (qs : List Question) : List Question :=
  qs.filter (fun q => truthyS q.parentId = false)

/-- The sub-questions of the working set: truthy parentId
(reorganizeQuestions). -/
def subsQ (qs : List Question) : List Question :=
  qs.filter (fun q => truthyS q.parentId)

/-- The questionsByParent grouping of reorganizeQuestions, read back as a
lookup: the sub-questions whose parentId is exactly the given string, in
working-set order. -/
def childrenOf (qs : List Question) (pid : String) : List Question :=
  (subsQ qs).filter (fun q => q.parentId = some pid)

/-- processQuestionHierarchy of reorganizeQuestions: emit the question,
then for each of its options in order, recursively the sub-questions
keyed to that option, in working-set order.  The source recursion carries
no fuel; it terminates because the application only builds trees, and the
explicit fuel below is large enough for every input on which the source
terminates (reorganizeQuestions passes the length of the working set). -/
def hier (qs : List Question) : Nat → Question → List Question
  | 0, q => [q]
  | fuel + 1, q =>
    q :: (optionsOf q).flatMap (fun o =>
      ((childrenOf qs q.id).filter (fun s => s.parentOptionId = some o.id)).flatMap
        (fun s => hier qs fuel s))

/-- The organizedQuestions list of reorganizeQuestions: the hierarchies of
all main questions, in order. -/
def organize (qs : List Question) : List Question :=
  (mains qs).flatMap (hier qs qs.length)

/-- padStart(3, Nat) of the decimal print of n: zero-pad to width 3,
longer strings unchanged. -/
def pad3 (n : Nat) : String :=
  let s := toString n
  (if s.length < 3 then String.mk (List.replicate (3 - s.length) '0') else "") ++ s

/-- The canonical id assigned to position i (0-based):
"q" + padStart(3)(i + 1). -/
def mkId (i : Nat) : String :=
  "q" ++ pad3 (i + 1)

/-- Decimal value of a digit string, used to invert the canonical id
format when reasoning about renumbering. -/
def valDigits (cs : List Char) : Nat :=
  cs.foldl (fun a c => a * 10 + (c.toNat - 48)) 0

/-- Lookup in the old-id-to-new-id map.  The map is built mutably in the
source; here it is the association list of entries, most recent first, so
find? returns what the latest Map.set left for the key, and none stands
for the undefined of a missing key. -/
def lookupS (m : List (String × String)) (k : String) : Option String :=
  (m.find? (fun p => p.1 = k)).map (fun p => p.2)

/-- One step of the renumbering pass of reorganizeQuestions at position i
with idMap m: the question first registers oldId to newId in the map (so
a question whose parentId equals its own old id resolves to itself), then
is emitted with the canonical id, with parentId rewritten through the map
when truthy (undefined otherwise, also when the map misses), and with
parentOptionId and every other field unchanged. -/
def renumOne (i : Nat) (m : List (String × String)) (q : Question) :
    Question :=
  { q with
    id := mkId i
    parentId :=
      if truthyS q.parentId then
        lookupS ((q.id, mkId i) :: m) (q.parentId.getD "")
      else none
    parentOptionId := q.parentOptionId }

/-- The renumbering pass of reorganizeQuestions: walk organizedQuestions
with a position counter and the idMap accumulated so far. -/
def renumGo : Nat → List (String × String) → List Question → List Question
  | _, _, [] => []
  | i, m, q :: rest =>
    renumOne i m q :: renumGo (i + 1) ((q.id, mkId i) :: m) rest

/-- The idMap entries contributed by a block of questions starting at
position i, most recent first (the orientation in which lookupS reads the
mutable Map of the source). -/
def entriesRev : Nat → List Question → List (String × String)
  | _, [] => []
  | i, q :: rest => entriesRev (i + 1) rest ++ [(q.id, mkId i)]

/-- reorganizeQuestions of FormBuilder: organize the hierarchy, then
renumber sequentially. -/
def reorganizeQuestions (qs : List Question) : List Question :=
  renumGo 0 [] (organize qs)

/-- Whitespace test for the trim model. -/
def isWS (c : Char) : Bool :=
  c = ' ' ∨ c = '\t' ∨ c = '\n' ∨ c = '\r'

/-- JavaScript String.prototype.trim, modelled over the character list so
that it evaluates inside the kernel: strip leading and trailing
whitespace. -/
def trimS (s : String) : String :=
  String.mk (((s.toList.dropWhile isWS).reverse.dropWhile isWS).reverse)

/-- The id-defaulting map of handleSaveForm, with the running position: a
question with a falsy id receives a fresh uuid; fresh stands for the uuid
source, indexed by the position of the question. -/
def assignIdsGo (fresh : Nat → String) : Nat → List Question → List Question
  | _, [] => []
  | i, q :: rest =>
    (if q.id = "" then { q with id := fresh i } else q) ::
      assignIdsGo fresh (i + 1) rest

/-- The id-defaulting map of handleSaveForm over the whole list. -/
def assignIds (fresh : Nat → String) (qs : List Question) : List Question :=
  assignIdsGo fresh 0 qs

/-- The question pipeline of handleSaveForm: none when the form name trims
to empty (the save is refused before any processing), otherwise the
questions with empty trimmed text dropped, ids defaulted, and the result
of reorganizeQuestions.  Nothing in this pipeline can fail: the source
try block contains no structural check and reorganizeQuestions never
throws. -/
def handleSaveFormQuestions (fresh : Nat → String) (name : String)
    (qs : List Question) : Option (List Question) :=
  if trimS name = "" then none
  else some (reorganizeQuestions (assignIds fresh
    (qs.filter (fun q => !(trimS q.text = "")))))

/-- Set.add of the questionsToDelete set: append when not yet present. -/
def insertS (x : String) (l : List String) : List String :=
  if x ∈ l then l else l ++ [x]

/-- findQuestionsToDelete of handleDeleteQuestion: add the id, then recurse
into every question whose parentId is that id.  The source recursion does
not re-check membership and carries no fuel; the explicit fuel below is
one more than the number of questions, which is enough to accumulate
every reachable id (a shortest parentId chain never repeats a question). -/
def findQuestionsToDelete (qs : List Question) :
    Nat → String → List String → List String
  | 0, _, acc => acc
  | fuel + 1, qId, acc =>
    (qs.filter (fun q => q.parentId = some qId)).foldl
      (fun a q => findQuestionsToDelete qs fuel q.id a)
      (insertS qId acc)

/-- handleDeleteQuestion of FormBuilder: delete the named question together
with the accumulated sub-question ids, keeping everything else in order. -/
def handleDeleteQuestion (qs : List Question) (questionId : String) :
    List Question :=
  let s := findQuestionsToDelete qs (qs.length + 1) questionId []
  qs.filter (fun q => !(s.contains q.id))

/-- An ancestor chain rooting a question: the question is in the working
set and either has a falsy parentId (a root of the linearizer) or its
parentId carries the non-empty id of the head of the chain, which is
itself rooted.  This is the invariant the hier traversal maintains for
the question it visits, and the device by which the tree shape of the
working set is expressed. -/
inductive AncC (qs : List Question) : Question → List Question → Prop where
  | root : ∀ {q : Question}, q ∈ qs → truthyS q.parentId = false →
      AncC qs q []
  | step : ∀ {q p : Question} {anc : List Question}, AncC qs p anc →
      q ∈ qs → q.parentId = some p.id → ¬ (p.id = "") → AncC qs q (p :: anc)

/-- The second question lies on the upward parentId chain of the first
(the first itself included); a step follows a truthy parentId reference
to a question of the working set carrying that id. -/
inductive AboveQ (qs : List Question) : Question → Question → Prop where
  | refl : ∀ x, AboveQ qs x x
  | step : ∀ {x y p : Question}, AboveQ qs x y → p ∈ qs → y ∈ qs →
      y.parentId = some p.id → ¬ (p.id = "") → AboveQ qs x p

/-- The renumbered heads of the consecutive hierarchy blocks of a list of
questions, starting at a given position with a given idMap: the shape in
which the direct children of a node reappear inside the renumbered
sequence. -/
def headRenums (qs : List Question) (f : Nat) :
    Nat → List (String × String) → List Question → List Question
  | _, _, [] => []
  | i, m, s :: rest =>
    renumOne i m s ::
      headRenums qs f (i + (hier qs f s).length)
        (entriesRev i (hier qs f s) ++ m) rest

/-- The sub-questions a hierarchy node actually recurses into, flattened
across its options in option order: for each option of the question, the
children keyed to that option, in working-set order.  This is the
traversal order of the inner loops of processQuestionHierarchy. -/
def chMatch (qs : List Question) (q : Question) : List Question :=
  (optionsOf q).flatMap (fun o =>
    (childrenOf qs q.id).filter (fun s => s.parentOptionId = some o.id))

/-- The ids reachable from a root id through parentId references: the root
itself, and the id of any question whose parentId is a reachable id.
This is the specification-side closure that handleDeleteQuestion is
claimed to remove. -/
inductive Reaches (qs : List Question) (root : String) : String → Prop where
  | refl : Reaches qs root root
  | step : ∀ {b : String} {q : Question},
      Reaches qs root b → q ∈ qs → q.parentId = some b → Reaches qs root q.id

/-- A concrete descending chain of parentId references: PathS qs a l b
holds when starting at id a and repeatedly stepping to a question whose
parentId is the current id, the visited ids are l and the last one is b
(b = a when l is empty). -/
inductive PathS (qs : List Question) : String → List String → String → Prop where
  | nil : ∀ a, PathS qs a [] a
  | cons : ∀ {a : String} {q : Question} {l : List String} {b : String},
      q ∈ qs → q.parentId = some a → PathS qs q.id l b →
      PathS qs a (q.id :: l) b

/-- Equality of every Question field except id and parentId: the frame the
renumbering pass is claimed to leave untouched. -/
def sameFrame (a b : Question) : Prop :=
  a.text = b.text ∧ a.type = b.type ∧ a.required = b.required ∧
  a.options = b.options ∧ a.parentOptionId = b.parentOptionId ∧
  a.includeInPowerBI = b.includeInPowerBI ∧
  a.powerBIFieldName = b.powerBIFieldName

instance (a b : Question) : Decidable (sameFrame a b) := by
  unfold sameFrame; infer_instance

/-! ### Concrete fixtures used by counterexamples and witnesses -/

/-- Option A of the example status question. -/
def exOptA : Opt := { id := "A", text := "Option A" }

/-- Option B of the example status question. -/
def exOptB : Opt := { id := "B", text := "Option B" }

/-- Option C of the example middle question. -/
def exOptC : Opt := { id := "C", text := "Option C" }

/-- Example root question: a select with options A and B. -/
def exG : Question :=
  { id := "g", text := "Status", type := .select, required := false,
    options := some [exOptA, exOptB] }

/-- Example middle question: a select with option C, conditional on option
A of the root. -/
def exP : Question :=
  { id := "p", text := "Middle", type := .select, required := false,
    options := some [exOptC], parentId := some "g",
    parentOptionId := some "A" }

/-- Example leaf question: required text, conditional on option C of the
middle question. -/
def exC : Question :=
  { id := "c", text := "Leaf", type := .text, required := true,
    parentId := some "p", parentOptionId := some "C" }

/-- The example working set: a three-level chain. -/
def exQs : List Question := [exG, exP, exC]

/-- The canonical sequence the linearizer produces for the example chain. -/
def exCanon : List Question := reorganizeQuestions exQs

/-- The example form around the chain. -/
def exForm : Form :=
  { id := "f", name := "F", description := "", questions := exQs,
    createdAt := 0, updatedAt := 0, version := 3 }

/-- A live-entry answer state answering the whole example chain. -/
def exAnswersFull : Responses :=
  [("g", .str "A"), ("p", .str "C"), ("c", .str "x")]

/-- An option with id o1, used by the duplicate-id fixtures. -/
def dupOpt : Opt := { id := "o1", text := "t" }

/-- A root whose id collides with its own conditional child below. -/
def dupX : Question :=
  { id := "a", text := "X", type := .select, required := false,
    options := some [dupOpt] }

/-- A child that carries the same id as its parent and is keyed to its
option o1. -/
def dupC : Question :=
  { id := "a", text := "Csub", type := .text, required := false,
    parentId := some "a", parentOptionId := some "o1" }

/-- A root select whose options list repeats the same option id twice. -/
def dupP : Question :=
  { id := "p", text := "P", type := .select, required := false,
    options := some [dupOpt, dupOpt] }

/-- A child keyed to the duplicated option of dupP. -/
def dupD : Question :=
  { id := "c", text := "Cc", type := .text, required := false,
    parentId := some "p", parentOptionId := some "o1" }

/-- One half of a two-question parentId cycle. -/
def cycA : Question :=
  { id := "a", text := "A", type := .text, required := false,
    parentId := some "b" }

/-- The other half of the cycle. -/
def cycB : Question :=
  { id := "b", text := "B", type := .text, required := false,
    parentId := some "a" }

/-- A select question with an empty options list. -/
def emptySel : Question :=
  { id := "s", text := "S", type := .select, required := false,
    options := some [] }

/-- The middle question as it appears inside the canonical sequence
exCanon, spelled out. -/
def exCanonMid : Question :=
  { id := "q002", text := "Middle", type := .select, required := false,
    options := some [exOptC], parentId := some "q001",
    parentOptionId := some "A" }

/-- The leaf question as it appears inside the canonical sequence
exCanon, spelled out. -/
def exCanonLeaf : Question :=
  { id := "q003", text := "Leaf", type := .text, required := true,
    parentId := some "q002", parentOptionId := some "C" }

/-- A canonical-id answer map answering root and middle question so that
the whole chain is live. -/
def exAnswersCanon : Responses :=
  [("q001", .str "A"), ("q002", .str "C")]

/-- The FormResponse the first submit variant persists for the example
form when only the root is answered with option B. -/
def exSubmitRecord : FormResponse :=
  { id := "n", formId := "f", formVersion := 3,
    responses := [{ questionId := "g", value := Value.str "B" }],
    createdAt := "t", updatedOffline := false }

/-- The root question as it appears inside the canonical sequence
exCanon, spelled out. -/
def exCanonHead : Question :=
  { id := "q001", text := "Status", type := .select, required := false,
    options := some [exOptA, exOptB] }

/-- A required root text question, for the validation witnesses. -/
def exR1 : Question :=
  { id := "r1", text := "R1", type := .text, required := true }

/-- A required root multiselect question, for the validation witnesses. -/
def exR2 : Question :=
  { id := "r2", text := "R2", type := .multiselect, required := true,
    options := some [exOptA] }

/-! ## General lemmas about the object embedding -/

theorem objGet_cons {α : Type} (a : String × α) (m : List (String × α))
    (i : String) :
    objGet (a :: m) i = if a.1 = i then some a.2 else objGet m i := by
  by_cases h : a.1 = i
  · simp [objGet, List.find?_cons_of_pos, h]
  · simp [objGet, List.find?_cons_of_neg, h]

theorem objGet_mem {α : Type} {m : List (String × α)} {k : String} {v : α}
    (h : objGet m k = some v) : (k, v) ∈ m := by
  induction m with
  | nil => simp [objGet] at h
  | cons p m ih =>
    rw [objGet_cons] at h
    by_cases hp : p.1 = k
    · rw [if_pos hp] at h
      have : p = (k, v) := by
        cases p with
        | mk a b => simp at hp h; simp [hp, h]
      simp [this]
    · rw [if_neg hp] at h
      exact List.mem_cons_of_mem _ (ih h)

theorem objGet_map_set {α : Type} (m : List (String × α)) (k i : String)
    (v : α) :
    objGet (m.map (fun p => if p.1 = k then (k, v) else p)) i =
      if i = k then ((m.find? (fun p => p.1 = k)).map (fun _ => v))
      else objGet m i := by
  induction m with
  | nil => by_cases h : i = k <;> simp [objGet, h]
  | cons p m ih =>
    obtain ⟨a, b⟩ := p
    simp only [List.map_cons]
    by_cases hp : a = k
    · subst hp
      rw [if_pos (show (a, b).1 = a from rfl)]
      rw [objGet_cons, List.find?_cons_of_pos _ (by simp)]
      by_cases hik : i = a
      · subst hik
        rw [if_pos (show (i, v).1 = i from rfl), if_pos rfl]
        rfl
      · rw [if_neg (show ¬ ((a, v).1 = i) from fun hh => hik hh.symm),
          if_neg hik, ih, if_neg hik, objGet_cons,
          if_neg (show ¬ ((a, b).1 = i) from fun hh => hik hh.symm)]
    · rw [if_neg (show ¬ ((a, b).1 = k) from hp)]
      rw [objGet_cons, objGet_cons,
        List.find?_cons_of_neg _ (by simpa using hp)]
      by_cases hpi : a = i
      · have hik : ¬ (i = k) := fun hh => hp (by rw [show a = i from hpi, hh])
        rw [if_pos (show (a, b).1 = i from hpi),
          if_pos (show (a, b).1 = i from hpi), if_neg hik]
      · rw [if_neg (show ¬ ((a, b).1 = i) from hpi),
          if_neg (show ¬ ((a, b).1 = i) from hpi), ih]

theorem objGet_append_new {α : Type} (m : List (String × α)) (k i : String)
    (v : α) (h : m.find? (fun p => p.1 = k) = none) :
    objGet (m ++ [(k, v)]) i = if i = k then some v else objGet m i := by
  induction m with
  | nil =>
    by_cases hik : i = k
    · simp [objGet_cons, hik, objGet]
    · rw [List.nil_append, objGet_cons,
        if_neg (show ¬ ((k, v).1 = i) from fun hh => hik hh.symm), if_neg hik]
  | cons p m ih =>
    obtain ⟨a, b⟩ := p
    have hp : ¬ (a = k) := by
      intro hh
      rw [List.find?_cons_of_pos _ (by simpa using hh)] at h
      exact Option.noConfusion h
    have hm : m.find? (fun p => p.1 = k) = none := by
      rwa [List.find?_cons_of_neg _ (by simpa using hp)] at h
    rw [List.cons_append, objGet_cons, ih hm, objGet_cons]
    by_cases hpi : a = i
    · have hik : ¬ (i = k) := fun hh => hp (by rw [show a = i from hpi, hh])
      rw [if_pos (show (a, b).1 = i from hpi), if_neg hik,
        if_pos (show (a, b).1 = i from hpi)]
    · rw [if_neg (show ¬ ((a, b).1 = i) from hpi),
        if_neg (show ¬ ((a, b).1 = i) from hpi)]

theorem objGet_objSet {α : Type} (m : List (String × α)) (k i : String)
    (v : α) :
    objGet (objSet m k v) i = if i = k then some v else objGet m i := by
  unfold objSet
  by_cases hf : (m.find? (fun p => p.1 = k)).isSome
  · rw [if_pos hf, objGet_map_set]
    by_cases hik : i = k
    · rw [if_pos hik, if_pos hik]
      obtain ⟨p, hp⟩ := Option.isSome_iff_exists.mp hf
      simp [hp]
    · rw [if_neg hik, if_neg hik]
  · rw [if_neg hf]
    have : m.find? (fun p => p.1 = k) = none := by
      cases hh : m.find? (fun p => p.1 = k) with
      | none => rfl
      | some p => rw [hh] at hf; simp at hf
    exact objGet_append_new m k i v this

theorem objGet_objDel {α : Type} (m : List (String × α)) (k i : String) :
    objGet (objDel m k) i = if i = k then none else objGet m i := by
  induction m with
  | nil => by_cases h : i = k <;> simp [objDel, objGet, h]
  | cons p m ih =>
    unfold objDel at ih ⊢
    by_cases hp : p.1 = k
    · rw [List.filter_cons_of_neg (by simpa using hp), ih, objGet_cons]
      by_cases hik : i = k
      · rw [if_pos hik, if_pos hik]
      · rw [if_neg hik, if_neg hik,
          if_neg (fun hh : p.1 = i => hik (by rw [← hh, hp]))]
    · rw [List.filter_cons_of_pos (by simpa using hp), objGet_cons, objGet_cons]
      by_cases hpi : p.1 = i
      · have hik : ¬ (i = k) := fun hh => hp (by rw [hpi, hh])
        rw [if_pos hpi, if_pos hpi, if_neg hik]
      · rw [if_neg hpi, if_neg hpi, ih]

/-! ## Validation: the error object is indexed exactly by live questions -/

theorem objGet_validateStep_ne (rs : Responses) (errs : Errors) (q : Question)
    (i : String) (h : ¬ (q.id = i)) :
    objGet (validateStep rs errs q) i = objGet errs i := by
  have h2 : ¬ (i = q.id) := fun hh => h hh.symm
  unfold validateStep
  by_cases hreq : q.required = true
  · simp only [hreq, if_true]
    cases hv : objGet rs q.id with
    | none => simp [objGet_objSet, h2]
    | some val =>
      cases val with
      | str s =>
        by_cases hs : s = "" <;> simp [hs, objGet_objSet, h2]
      | arr l =>
        by_cases hl : l.isEmpty <;> simp [hl, objGet_objSet, h2]
      | num n => simp
      | bool b => simp
      | null => simp [objGet_objSet, h2]
  · simp only [if_neg hreq]

theorem objSet_presence {α : Type} (m : List (String × α)) (k i : String)
    (v : α) (h : (objGet m i).isSome) : (objGet (objSet m k v) i).isSome := by
  rw [objGet_objSet]
  by_cases hik : i = k
  · rw [if_pos hik]; rfl
  · rwa [if_neg hik]

theorem validateStep_presence (rs : Responses) (errs : Errors) (q : Question)
    (i : String) (h : (objGet errs i).isSome) :
    (objGet (validateStep rs errs q) i).isSome := by
  unfold validateStep
  by_cases hreq : q.required = true
  · simp only [hreq, if_true]
    cases hv : objGet rs q.id with
    | none => exact objSet_presence _ _ _ _ h
    | some val =>
      cases val with
      | str s =>
        by_cases hs : s = ""
        · simp only [hs, if_pos rfl]
          exact objSet_presence _ _ _ _ h
        · simp only [if_neg hs]
          exact h
      | arr l =>
        by_cases hl : l.isEmpty
        · simp only [hl, if_true]
          exact objSet_presence _ _ _ _ h
        · simp only [hl, if_false]
          exact h
      | num n => exact h
      | bool b => exact h
      | null => exact objSet_presence _ _ _ _ h
  · simp only [if_neg hreq]
    exact h

theorem validateStep_sets (rs : Responses) (errs : Errors) (q : Question)
    (hreq : q.required = true)
    (hmiss : objGet rs q.id = none ∨ objGet rs q.id = some Value.null ∨
      objGet rs q.id = some (Value.str "") ∨
      objGet rs q.id = some (Value.arr [])) :
    (objGet (validateStep rs errs q) q.id).isSome := by
  unfold validateStep
  simp only [hreq, if_true]
  rcases hmiss with h | h | h | h <;> rw [h] <;> simp [objGet_objSet]

theorem validate_fold_none (rs : Responses) :
    ∀ (L : List Question) (errs : Errors) (i : String),
      objGet errs i = none → (∀ q ∈ L, ¬ (q.id = i)) →
      objGet (L.foldl (validateStep rs) errs) i = none := by
  intro L
  induction L with
  | nil => intro errs i h _; simpa using h
  | cons q L ih =>
    intro errs i h hall
    rw [List.foldl_cons]
    refine ih _ i ?_ (fun q2 hq2 => hall q2 (List.mem_cons_of_mem _ hq2))
    rw [objGet_validateStep_ne rs errs q i (hall q (List.mem_cons_self _ _))]
    exact h

theorem validate_fold_pres (rs : Responses) :
    ∀ (L : List Question) (errs : Errors) (i : String),
      (objGet errs i).isSome →
      (objGet (L.foldl (validateStep rs) errs) i).isSome := by
  intro L
  induction L with
  | nil => intro errs i h; simpa using h
  | cons q L ih =>
    intro errs i h
    rw [List.foldl_cons]
    exact ih _ i (validateStep_presence rs errs q i h)

/-- C4: required-ness is enforced only over live questions.  For every
question list and answer map, the error object built by validateForm has
no entry for any id that is not the id of a question in the visible
(live) set; in particular a required conditional child whose parent
answer does not unlock it produces no validation error and cannot block
submission, even with no answer stored for it. -/
theorem C4_required_only_live (questions : List Question)
    (responses : Responses) (i : String)
    (h : i ∉ (getVisibleQuestions questions responses).map (fun q => q.id)) :
    objGet (validateForm questions responses) i = none := by
  unfold validateForm
  exact validate_fold_none responses _ [] i rfl
    (fun q hq hqi => h (List.mem_map.mpr ⟨q, hq, hqi⟩))

/-- Witness for C4 at a concrete input: with the example chain and the
answer map selecting option B of the root, the required leaf question c
is not live and validateForm stores no error under its id. -/
theorem C4_required_only_live_w :
    ("c" ∉ (getVisibleQuestions exQs [("g", Value.str "B")]).map
      (fun q => q.id)) ∧
    objGet (validateForm exQs [("g", Value.str "B")]) "c" = none :=
  ⟨by decide,
    C4_required_only_live exQs [("g", Value.str "B")] "c" (by decide)⟩

/-- C8: submit-time validation reports every violation at once.  Every
question of the visible (live) set that is required and whose stored
value is missing (undefined, null or the empty string) or is an empty
array owns an entry of the error object built by validateForm — not just
the first such question, since later fold steps never remove an entry. -/
theorem C8_all_violations (questions : List Question) (responses : Responses)
    (q : Question) (hq : q ∈ getVisibleQuestions questions responses)
    (hreq : q.required = true)
    (hmiss : objGet responses q.id = none ∨
      objGet responses q.id = some Value.null ∨
      objGet responses q.id = some (Value.str "") ∨
      objGet responses q.id = some (Value.arr [])) :
    (objGet (validateForm questions responses) q.id).isSome := by
  unfold validateForm
  obtain ⟨l1, l2, hsplit⟩ := List.append_of_mem hq
  rw [hsplit, List.foldl_append, List.foldl_cons]
  exact validate_fold_pres responses l2 _ _
    (validateStep_sets responses _ q hreq hmiss)

/-- Witness for C8 at a concrete input: two live required questions are
both unanswered (the second with an empty array); the theorem applied to
the second question shows its violation is reported as well, not only the
first one. -/
theorem C8_all_violations_w :
    (exR2 ∈ getVisibleQuestions [exR1, exR2] [("r2", Value.arr [])]) ∧
    exR2.required = true ∧
    (objGet (validateForm [exR1, exR2] [("r2", Value.arr [])])
      exR2.id).isSome ∧
    (objGet (validateForm [exR1, exR2] [("r2", Value.arr [])])
      exR1.id).isSome :=
  ⟨by decide, rfl,
    C8_all_violations [exR1, exR2] [("r2", Value.arr [])] exR2 (by decide)
      rfl (Or.inr (Or.inr (Or.inr rfl))),
    by decide⟩

/-! ## C1: visibility transitivity -/

/-- C1 counterexample: in the canonical sequence produced by the
linearizer for the example chain, question q003 is a conditional child of
q002, yet under the answer map storing option C for q002 the visibility
evaluator reports q003 as live while its parent q002 is not live (the
evaluator only inspects the immediate parent answer, never the parent
liveness), so transitivity fails for this answer map. -/
theorem C1_transitivity_cex :
    (exCanon.map (fun q => (q.id, q.parentId)) =
      [("q001", none), ("q002", some "q001"), ("q003", some "q002")]) ∧
    (getVisibleQuestions exCanon [("q002", Value.str "C")]).map
      (fun q => q.id) = ["q001", "q003"] := by
  exact ⟨by decide, by decide⟩

/-- C1 (amended): visibility is transitive for every answer map whose
entries all belong to live questions (that is, no stray answer is stored
for a non-live question), provided every conditional child carries a
parentOptionId (which holds for every child the linearizer emits): if a
question with a non-empty parentId is live, some question carrying that
id is live as well. -/
theorem C1_transitivity_amended (questions : List Question)
    (responses : Responses)
    (hscope : ∀ kv ∈ responses, ∃ p ∈ questions,
      p.id = kv.1 ∧ isVisible questions responses p = true)
    (hlink : ∀ q ∈ questions, truthyS q.parentId = true →
      q.parentOptionId ≠ none)
    (q : Question) (hq : q ∈ questions)
    (hlive : isVisible questions responses q = true)
    (v : String) (hv : q.parentId = some v) (hv2 : ¬ (v = "")) :
    ∃ p ∈ questions, p.id = v ∧
      isVisible questions responses p = true := by
  unfold isVisible at hlive
  simp only [hv] at hlive
  rw [if_neg hv2] at hlive
  cases hfind : questions.find? (fun p => p.id = v) with
  | none => simp [hfind] at hlive
  | some parent =>
    simp only [hfind] at hlive
    have hpid : parent.id = v := by
      have := List.find?_some hfind
      simpa using this
    by_cases hsel : parent.type = .select
    · rw [if_pos hsel] at hlive
      cases hval : objGet responses parent.id with
      | none =>
        simp only [hval] at hlive
        cases hpo : q.parentOptionId with
        | none =>
          have := hlink q hq (by rw [hv]; simpa [truthyS] using hv2)
          exact absurd hpo this
        | some t =>
          simp only [hpo] at hlive
          exact absurd hlive (by simp [strictEqAnswerOpt])
      | some val =>
        cases val with
        | str s =>
          have hmem := objGet_mem hval
          obtain ⟨p, hp, hpid2, hplive⟩ := hscope (parent.id, .str s) hmem
          exact ⟨p, hp, by rw [hpid2, ← hpid], hplive⟩
        | num n =>
          simp only [hval] at hlive
          cases hpo : q.parentOptionId with
          | none => simp only [hpo] at hlive; exact absurd hlive (by simp [strictEqAnswerOpt])
          | some t => simp only [hpo] at hlive; exact absurd hlive (by simp [strictEqAnswerOpt])
        | bool b =>
          simp only [hval] at hlive
          cases hpo : q.parentOptionId with
          | none => simp only [hpo] at hlive; exact absurd hlive (by simp [strictEqAnswerOpt])
          | some t => simp only [hpo] at hlive; exact absurd hlive (by simp [strictEqAnswerOpt])
        | arr l =>
          simp only [hval] at hlive
          cases hpo : q.parentOptionId with
          | none => simp only [hpo] at hlive; exact absurd hlive (by simp [strictEqAnswerOpt])
          | some t => simp only [hpo] at hlive; exact absurd hlive (by simp [strictEqAnswerOpt])
        | null =>
          simp only [hval] at hlive
          cases hpo : q.parentOptionId with
          | none => simp only [hpo] at hlive; exact absurd hlive (by simp [strictEqAnswerOpt])
          | some t => simp only [hpo] at hlive; exact absurd hlive (by simp [strictEqAnswerOpt])
    · by_cases hmul : parent.type = .multiselect
      · rw [if_neg hsel, if_pos hmul] at hlive
        cases hval : objGet responses parent.id with
        | none => simp only [hval] at hlive; exact absurd hlive (by simp)
        | some val =>
          cases val with
          | arr l =>
            have hmem := objGet_mem hval
            obtain ⟨p, hp, hpid2, hplive⟩ := hscope (parent.id, .arr l) hmem
            exact ⟨p, hp, by rw [hpid2, ← hpid], hplive⟩
          | str s => simp only [hval] at hlive; exact absurd hlive (by simp)
          | num n => simp only [hval] at hlive; exact absurd hlive (by simp)
          | bool b => simp only [hval] at hlive; exact absurd hlive (by simp)
          | null => simp only [hval] at hlive; exact absurd hlive (by simp)
      · rw [if_neg hsel, if_neg hmul] at hlive
        exact absurd hlive (by simp)

/-- Witness for the amended C1 at a concrete input: on the canonical
example chain with both root and middle question answered so that
everything is live, the theorem applied to the live leaf q003 yields a
live question carrying its parent id q002. -/
theorem C1_transitivity_amended_w :
    ∃ p ∈ exCanon, p.id = "q002" ∧
      isVisible exCanon exAnswersCanon p = true :=
  C1_transitivity_amended exCanon exAnswersCanon (by decide) (by decide)
    exCanonLeaf (by decide) (by decide) "q002" (by decide) (by decide)

/-! ## C7: clearing of sub-question values on parent change -/

theorem clear_step_falsy (acc : Responses) (x : Question) (i : String)
    (h : truthyV (objGet acc i) = false) :
    truthyV (objGet
      (if truthyV (objGet acc x.id) then objDel acc x.id else acc) i) =
      false := by
  by_cases hc : truthyV (objGet acc x.id)
  · rw [if_pos hc, objGet_objDel]
    by_cases hix : i = x.id
    · rw [if_pos hix]; rfl
    · rwa [if_neg hix]
  · rwa [if_neg hc]

theorem clear_fold_falsy :
    ∀ (L : List Question) (acc : Responses) (i : String),
      truthyV (objGet acc i) = false →
      truthyV (objGet
        (L.foldl (fun acc sub =>
          if truthyV (objGet acc sub.id) then objDel acc sub.id else acc)
          acc) i) = false := by
  intro L
  induction L with
  | nil => intro acc i h; simpa using h
  | cons x L ih =>
    intro acc i h
    rw [List.foldl_cons]
    exact ih _ i (clear_step_falsy acc x i h)

theorem clear_fold_hits :
    ∀ (L : List Question) (acc : Responses) (i : String),
      (∃ x ∈ L, x.id = i) →
      truthyV (objGet
        (L.foldl (fun acc sub =>
          if truthyV (objGet acc sub.id) then objDel acc sub.id else acc)
          acc) i) = false := by
  intro L
  induction L with
  | nil => intro acc i h; obtain ⟨x, hx, _⟩ := h; exact absurd hx (by simp)
  | cons x L ih =>
    intro acc i h
    rw [List.foldl_cons]
    obtain ⟨y, hy, hyi⟩ := h
    rcases List.mem_cons.mp hy with hyx | hyL
    · subst hyx
      apply clear_fold_falsy
      by_cases hc : truthyV (objGet acc y.id)
      · rw [hyi] at hc
        rw [if_pos (by rwa [hyi]), objGet_objDel, hyi, if_pos rfl]
        rfl
      · rw [hyi] at hc
        rw [if_neg (by rwa [hyi])]
        simpa using hc
    · exact ih _ i ⟨y, hyL, hyi⟩

/-- C7 counterexample: after entering the whole example chain and then
switching the root answer from A to B, the first variant of
handleInputChange deletes only the direct child p; the grandchild c has
become not-live but its entered value x is still stored, so the claimed
at-any-depth discard fails; and the second variant retains even the
direct child value p. -/
theorem C7_clear_cex :
    (isVisible exQs exAnswersFull exC = true) ∧
    (isVisible exQs
      (handleInputChange exQs exAnswersFull "g" (Value.str "B")) exC
      = false) ∧
    (objGet (handleInputChange exQs exAnswersFull "g" (Value.str "B")) "c" =
      some (Value.str "x")) ∧
    (isVisible exQs exAnswersFull exP = true) ∧
    (isVisible exQs
      (handleInputChangeV2 exAnswersFull "g" (Value.str "B")) exP
      = false) ∧
    (objGet (handleInputChangeV2 exAnswersFull "g" (Value.str "B")) "p" =
      some (Value.str "C")) := by
  decide

/-- C7 (amended): in the first FormPreview variant, whenever the value of
a select or multiselect question changes, every direct sub-question of
that question ends with no truthy stored value (its previously entered
value is deleted when truthy, so the child presents blank afterwards);
the discard happens on every change of the parent value, does not reach
grandchildren, and does not happen at all in the second variant. -/
theorem C7_clear_amended (questions : List Question) (responses : Responses)
    (questionId : String) (value : Value) (sub : Question)
    (hsub : sub ∈ questions) (hpar : sub.parentId = some questionId)
    (q : Question)
    (hfind : questions.find? (fun q0 => q0.id = questionId) = some q)
    (htype : q.type = .select ∨ q.type = .multiselect) :
    truthyV (objGet
      (handleInputChange questions responses questionId value) sub.id) =
      false := by
  unfold handleInputChange
  simp only [hfind]
  rw [if_pos htype]
  unfold clearSubQuestions
  apply clear_fold_hits
  exact ⟨sub, List.mem_filter.mpr ⟨hsub, by simp [hpar]⟩, rfl⟩

/-- Witness for the amended C7 at a concrete input: changing the fully
answered example chain root to B leaves the direct child p with no truthy
stored value. -/
theorem C7_clear_amended_w :
    truthyV (objGet
      (handleInputChange exQs exAnswersFull "g" (Value.str "B")) exP.id) =
      false :=
  C7_clear_amended exQs exAnswersFull "g" (Value.str "B") exP (by decide)
    rfl exG (by decide) (Or.inl rfl)

/-! ## C6: what the submitted FormResponse contains -/

/-- C6 counterexample: in the second FormPreview variant, submitting the
example form with the root answered B and a stray stored value for the
not-live leaf c succeeds and persists the stray entry: the assembled
responses list contains the entry for c although the live set is only the
root.  So the claim that not-live entries are dropped fails on this
variant. -/
theorem C6_submit_cex :
    (handleSubmitV2 exForm "f" [("g", Value.str "B"), ("c", Value.str "x")]
      "new" "now" =
      some { id := "new", formId := "f", formVersion := 3,
             responses := [⟨"g", Value.str "B"⟩, ⟨"c", Value.str "x"⟩],
             createdAt := "now", updatedOffline := false }) ∧
    ((getVisibleQuestions exQs [("g", Value.str "B"), ("c", Value.str "x")]).map
      (fun q => q.id) = ["g"]) := by
  decide

/-- C6 (amended): the first FormPreview variant behaves as claimed: on a
successful submission, the persisted FormResponse carries the fresh
identifier, the current timestamp, the submitted form id and the current
form version, and every emitted QuestionResponse belongs to a question of
the form that is live under the submitted answers (stray values of
not-live questions are dropped).  The second variant emits every stored
entry instead. -/
theorem C6_submit_amended (form : Form) (fid : String)
    (responses : Responses) (newId now : String) (fr : FormResponse)
    (h : handleSubmitV1 form fid responses newId now = some fr) :
    fr.id = newId ∧ fr.createdAt = now ∧ fr.formId = fid ∧
    fr.formVersion = form.version ∧
    ∀ qr ∈ fr.responses, ∃ q,
      form.questions.find? (fun q0 => q0.id = qr.questionId) = some q ∧
      isVisible form.questions responses q = true := by
  unfold handleSubmitV1 at h
  by_cases hv : validateForm form.questions responses = []
  · rw [if_pos hv] at h
    cases h
    refine ⟨rfl, rfl, rfl, rfl, ?_⟩
    intro qr hqr
    simp only [saveResponseRecord, questionResponsesV1, List.mem_map] at hqr
    obtain ⟨kv, hkv, hqr2⟩ := hqr
    rw [List.mem_filter] at hkv
    obtain ⟨_, hkv2⟩ := hkv
    cases hfind : form.questions.find? (fun q0 => q0.id = kv.1) with
    | none => simp [hfind] at hkv2
    | some q =>
      simp only [hfind] at hkv2
      refine ⟨q, ?_, hkv2⟩
      rw [← hqr2]
      exact hfind
  · rw [if_neg hv] at h
    exact Option.noConfusion h

/-- Witness for the amended C6 at a concrete input: submitting the example
form with only the root answered persists exactly the record
exSubmitRecord, and the theorem instantiates on it. -/
theorem C6_submit_amended_w :
    exSubmitRecord.id = "n" ∧ exSubmitRecord.createdAt = "t" ∧
    exSubmitRecord.formId = "f" ∧
    exSubmitRecord.formVersion = exForm.version ∧
    ∀ qr ∈ exSubmitRecord.responses, ∃ q,
      exForm.questions.find? (fun q0 => q0.id = qr.questionId) = some q ∧
      isVisible exForm.questions [("g", Value.str "B")] q = true :=
  C6_submit_amended exForm "f" [("g", Value.str "B")] "n" "t"
    exSubmitRecord (by decide)

/-! ## Shared structural lemmas about the linearizer -/

theorem sameFrame_refl (q : Question) : sameFrame q q :=
  ⟨rfl, rfl, rfl, rfl, rfl, rfl, rfl⟩

theorem sameFrame_trans {a b c : Question} (h1 : sameFrame a b)
    (h2 : sameFrame b c) : sameFrame a c := by
  obtain ⟨t1, y1, r1, o1, p1, i1, w1⟩ := h1
  obtain ⟨t2, y2, r2, o2, p2, i2, w2⟩ := h2
  exact ⟨t1.trans t2, y1.trans y2, r1.trans r2, o1.trans o2, p1.trans p2,
    i1.trans i2, w1.trans w2⟩

theorem assignGo_mem (fresh : Nat → String) :
    ∀ (L : List Question) (i : Nat) (q : Question), q ∈ L →
      ∃ q1 ∈ assignIdsGo fresh i L,
        sameFrame q q1 ∧ q1.parentId = q.parentId := by
  intro L
  induction L with
  | nil => intro i q hq; exact absurd hq (by simp)
  | cons x L ih =>
    intro i q hq
    rcases List.mem_cons.mp hq with rfl | hqL
    · refine ⟨if q.id = "" then { q with id := fresh i } else q,
        List.mem_cons_self _ _, ?_, ?_⟩
      · by_cases h : q.id = "" <;> simp [h, sameFrame]
      · by_cases h : q.id = "" <;> simp [h]
    · obtain ⟨q1, hmem, hfr⟩ := ih (i + 1) q hqL
      exact ⟨q1, List.mem_cons_of_mem _ hmem, hfr⟩

theorem mains_subset {qs : List Question} {q : Question}
    (h : q ∈ mains qs) : q ∈ qs :=
  (List.mem_filter.mp h).1

theorem mains_falsy {qs : List Question} {q : Question}
    (h : q ∈ mains qs) : truthyS q.parentId = false := by
  have := (List.mem_filter.mp h).2
  simpa using this

theorem childrenOf_subset {qs : List Question} {pid : String} {q : Question}
    (h : q ∈ childrenOf qs pid) : q ∈ qs :=
  (List.mem_filter.mp ((List.mem_filter.mp h).1)).1

theorem childrenOf_parent {qs : List Question} {pid : String} {q : Question}
    (h : q ∈ childrenOf qs pid) : q.parentId = some pid := by
  have := (List.mem_filter.mp h).2
  simpa using this

theorem hier_self_mem (qs : List Question) (f : Nat) (q : Question) :
    q ∈ hier qs f q := by
  cases f <;> simp [hier]

theorem hier_mem_subset (qs : List Question) :
    ∀ (f : Nat) (q x : Question), q ∈ qs → x ∈ hier qs f q → x ∈ qs := by
  intro f
  induction f with
  | zero =>
    intro q x hq hx
    simp only [hier, List.mem_singleton] at hx
    exact hx ▸ hq
  | succ f ih =>
    intro q x hq hx
    simp only [hier, List.mem_cons, List.mem_flatMap] at hx
    rcases hx with rfl | ⟨o, _, s, hs, hx3⟩
    · exact hq
    · have hs2 : s ∈ qs := childrenOf_subset (List.mem_filter.mp hs).1
      exact ih s x hs2 hx3

theorem organize_subset (qs : List Question) (x : Question)
    (h : x ∈ organize qs) : x ∈ qs := by
  obtain ⟨m, hm, hx⟩ := List.mem_flatMap.mp h
  exact hier_mem_subset qs _ m x (mains_subset hm) hx

theorem renum_mem_frame :
    ∀ (L : List Question) (i : Nat) (m : List (String × String))
      (q : Question), q ∈ L →
      ∃ q2 ∈ renumGo i m L, sameFrame q q2 := by
  intro L
  induction L with
  | nil => intro i m q hq; exact absurd hq (by simp)
  | cons x L ih =>
    intro i m q hq
    rcases List.mem_cons.mp hq with rfl | hqL
    · exact ⟨_, List.mem_cons_self _ _, by simp [sameFrame, renumOne]⟩
    · obtain ⟨q2, hmem, hfr⟩ := ih (i + 1) ((x.id, mkId i) :: m) q hqL
      exact ⟨q2, List.mem_cons_of_mem _ hmem, hfr⟩

theorem renum_mem_rev :
    ∀ (L : List Question) (i : Nat) (m : List (String × String))
      (q2 : Question), q2 ∈ renumGo i m L →
      ∃ q ∈ L, sameFrame q q2 := by
  intro L
  induction L with
  | nil => intro i m q2 hq; exact absurd hq (by simp [renumGo])
  | cons x L ih =>
    intro i m q2 hq
    rw [renumGo] at hq
    rcases List.mem_cons.mp hq with rfl | hqL
    · exact ⟨x, List.mem_cons_self _ _, by simp [sameFrame, renumOne]⟩
    · obtain ⟨q, hmem, hfr⟩ := ih (i + 1) ((x.id, mkId i) :: m) q2 hqL
      exact ⟨q, List.mem_cons_of_mem _ hmem, hfr⟩

/-! ## C10: renumbering touches only question identity -/

/-- C10: reorganizeQuestions rewrites only the id and parentId fields.
Every question of the output agrees with some question of the input on
every other field: text, type, required flag, the whole options array
(each option id and text included), parentOptionId, and the PowerBI
fields. -/
theorem C10_frame (qs : List Question) (q2 : Question)
    (h : q2 ∈ reorganizeQuestions qs) : ∃ q ∈ qs, sameFrame q q2 := by
  unfold reorganizeQuestions at h
  obtain ⟨q, hq, hfr⟩ := renum_mem_rev _ 0 [] q2 h
  exact ⟨q, organize_subset qs q hq, hfr⟩

/-- Witness for C10 at a concrete input: the canonical head of the
example chain is in the linearizer output and agrees with an input
question on all fields other than id and parentId. -/
theorem C10_frame_w :
    (exCanonHead ∈ reorganizeQuestions exQs) ∧
    ∃ q ∈ exQs, sameFrame q exCanonHead :=
  ⟨by decide, C10_frame exQs exCanonHead (by decide)⟩

/-! ## C5: the linearizer never rejects -/

/-- C5 counterexample: the two-question parentId cycle is not rejected —
the save pipeline succeeds and silently drops both questions — and a
select question with zero options is not rejected either: it is emitted
renumbered with its empty options list.  No StructuralError exists
anywhere in this code path. -/
theorem C5_no_rejection_cex :
    (handleSaveFormQuestions (fun _ => "u") "F" [cycA, cycB] = some []) ∧
    ((reorganizeQuestions [emptySel]).map (fun q => (q.id, q.options)) =
      [("q001", some [])]) := by
  decide

/-- C5 (amended): the linearizer and the save pipeline perform no
structural validation at all: for every working set and non-empty form
name the save succeeds, questions lying on a parentId cycle are silently
dropped (they are reachable from no root), and every root question with
non-empty text — a zero-option select included — is emitted. -/
theorem C5_no_rejection_amended (fresh : Nat → String) (name : String)
    (qs : List Question) (hname : ¬ (trimS name = "")) :
    ∃ out, handleSaveFormQuestions fresh name qs = some out ∧
      ∀ q ∈ qs, truthyS q.parentId = false → ¬ (trimS q.text = "") →
        ∃ q2 ∈ out, sameFrame q q2 := by
  refine ⟨reorganizeQuestions (assignIds fresh
    (qs.filter (fun q0 => !(trimS q0.text = "")))), ?_, ?_⟩
  · unfold handleSaveFormQuestions
    rw [if_neg hname]
  · intro q hq hmain htext
    have hq1 : q ∈ qs.filter (fun q0 => !(trimS q0.text = "")) :=
      List.mem_filter.mpr ⟨hq, by simpa using htext⟩
    obtain ⟨q1, hq1mem, hfr, hpid⟩ := assignGo_mem fresh _ 0 q hq1
    have hq1main : q1 ∈ mains (assignIds fresh
        (qs.filter (fun q0 => !(trimS q0.text = "")))) := by
      refine List.mem_filter.mpr ⟨hq1mem, ?_⟩
      simp [hpid, hmain]
    have hq1org : q1 ∈ organize (assignIds fresh
        (qs.filter (fun q0 => !(trimS q0.text = "")))) :=
      List.mem_flatMap.mpr ⟨q1, hq1main, hier_self_mem _ _ q1⟩
    obtain ⟨q2, hq2, hfr2⟩ := renum_mem_frame _ 0 [] q1 hq1org
    exact ⟨q2, hq2, sameFrame_trans hfr hfr2⟩

/-- Witness for the amended C5 at a concrete input: saving a form holding
only the zero-option select succeeds and emits it. -/
theorem C5_no_rejection_amended_w :
    ∃ out, handleSaveFormQuestions (fun _ => "u") "F" [emptySel] = some out ∧
      ∀ q ∈ [emptySel], truthyS q.parentId = false → ¬ (trimS q.text = "") →
        ∃ q2 ∈ out, sameFrame q q2 :=
  C5_no_rejection_amended (fun _ => "u") "F" [emptySel] (by decide)

/-! ## C9: handleDeleteQuestion removes exactly the reachable ids -/

theorem insertS_mem {x y : String} {l : List String} :
    x ∈ insertS y l ↔ x = y ∨ x ∈ l := by
  unfold insertS
  by_cases h : y ∈ l
  · rw [if_pos h]
    constructor
    · exact Or.inr
    · rintro (rfl | hx)
      · exact h
      · exact hx
  · rw [if_neg h]
    simp [List.mem_append, or_comm]

theorem Reaches_trans {qs : List Question} {a b c : String}
    (h1 : Reaches qs a b) (h2 : Reaches qs b c) : Reaches qs a c := by
  induction h2 with
  | refl => exact h1
  | step _ hq hpid ih => exact .step ih hq hpid

theorem dfs_pres (qs : List Question) :
    ∀ (f : Nat) (a : String) (acc : List String) (x : String),
      x ∈ acc → x ∈ findQuestionsToDelete qs f a acc := by
  intro f
  induction f with
  | zero => intro a acc x hx; exact hx
  | succ f ih =>
    intro a acc x hx
    rw [findQuestionsToDelete]
    have hx2 : x ∈ insertS a acc := insertS_mem.mpr (Or.inr hx)
    revert hx2
    generalize insertS a acc = acc0
    generalize qs.filter (fun q => q.parentId = some a) = L
    induction L generalizing acc0 with
    | nil => intro h; simpa using h
    | cons q L ihL =>
      intro h
      rw [List.foldl_cons]
      exact ihL _ (ih q.id acc0 x h)

theorem dfs_fold_pres (qs : List Question) (f : Nat) :
    ∀ (L : List Question) (acc : List String) (x : String), x ∈ acc →
      x ∈ L.foldl (fun a q => findQuestionsToDelete qs f q.id a) acc := by
  intro L
  induction L with
  | nil => intro acc x hx; simpa using hx
  | cons q L ihL =>
    intro acc x hx
    rw [List.foldl_cons]
    exact ihL _ x (dfs_pres qs f q.id acc x hx)

theorem dfs_sound (qs : List Question) :
    ∀ (f : Nat) (a : String) (acc : List String) (x : String),
      x ∈ findQuestionsToDelete qs f a acc → x ∈ acc ∨ Reaches qs a x := by
  intro f
  induction f with
  | zero => intro a acc x hx; exact Or.inl hx
  | succ f ih =>
    intro a acc x hx
    rw [findQuestionsToDelete] at hx
    have hstart : ∀ y, y ∈ insertS a acc → y ∈ acc ∨ Reaches qs a y := by
      intro y hy
      rcases insertS_mem.mp hy with rfl | hy2
      · exact Or.inr .refl
      · exact Or.inl hy2
    have hkids : ∀ q ∈ qs.filter (fun q => q.parentId = some a),
        Reaches qs a q.id := by
      intro q hq
      have h1 := (List.mem_filter.mp hq).1
      have h2 : q.parentId = some a := by
        have := (List.mem_filter.mp hq).2
        simpa using this
      exact .step .refl h1 h2
    revert hx hstart hkids
    generalize insertS a acc = acc0
    generalize qs.filter (fun q => q.parentId = some a) = L
    induction L generalizing acc0 with
    | nil =>
      intro hx hstart _
      exact hstart x (by simpa using hx)
    | cons q L ihL =>
      intro hx hstart hkids
      rw [List.foldl_cons] at hx
      refine ihL _ hx ?_ (fun q2 h2 => hkids q2 (List.mem_cons_of_mem _ h2))
      intro y hy
      rcases ih q.id acc0 y hy with hy2 | hy2
      · exact hstart y hy2
      · exact Or.inr (Reaches_trans (hkids q (List.mem_cons_self _ _)) hy2)

theorem dfs_complete (qs : List Question) :
    ∀ (l : List String) (f : Nat) (a b : String) (acc : List String),
      PathS qs a l b → l.length < f →
      b ∈ findQuestionsToDelete qs f a acc := by
  intro l f a b acc hp
  induction hp generalizing f acc with
  | nil a =>
    intro hf
    obtain ⟨f2, rfl⟩ := Nat.exists_eq_add_of_lt hf
    rw [findQuestionsToDelete]
    exact dfs_fold_pres qs _ _ _ _ (insertS_mem.mpr (Or.inl rfl))
  | @cons a q l b hq hpid _ ih =>
    intro hf
    cases f with
    | zero => exact absurd hf (by simp)
    | succ f =>
      rw [findQuestionsToDelete]
      have hlen : l.length < f := by
        simpa using Nat.lt_of_succ_lt_succ hf
      have hqmem : q ∈ qs.filter (fun q2 => q2.parentId = some a) :=
        List.mem_filter.mpr ⟨hq, by simp [hpid]⟩
      revert hqmem
      generalize insertS a acc = acc0
      generalize qs.filter (fun q2 => q2.parentId = some a) = L
      induction L generalizing acc0 with
      | nil => intro h; exact absurd h (by simp)
      | cons y L ihL =>
        intro h
        rw [List.foldl_cons]
        rcases List.mem_cons.mp h with rfl | hL
        · exact dfs_fold_pres qs _ _ _ _ (ih f _ hlen)
        · exact ihL _ hL

theorem pathS_append {qs : List Question} {a m b : String}
    {u v : List String} (h1 : PathS qs a u m) (h2 : PathS qs m v b) :
    PathS qs a (u ++ v) b := by
  induction h1 with
  | nil => exact h2
  | cons hq hpid _ ih => exact .cons hq hpid (ih h2)

theorem pathS_split {qs : List Question} :
    ∀ (u : List String) {v : List String} {a b : String},
      PathS qs a (u ++ v) b → ∃ m, PathS qs a u m ∧ PathS qs m v b := by
  intro u
  induction u with
  | nil => intro v a b h; exact ⟨a, .nil a, h⟩
  | cons x u ih =>
    intro v a b h
    cases h with
    | cons hq hpid rest =>
      obtain ⟨m, p1, p2⟩ := ih rest
      exact ⟨m, .cons hq hpid p1, p2⟩

theorem pathS_last {qs : List Question} {a m : String} {u : List String}
    (h : PathS qs a u m) : (u = [] ∧ m = a) ∨ ∃ u2, u = u2 ++ [m] := by
  induction h with
  | nil => exact Or.inl ⟨rfl, rfl⟩
  | @cons a q l b hq hpid rest ih =>
    rcases ih with ⟨rfl, rfl⟩ | ⟨u2, rfl⟩
    · exact Or.inr ⟨[], rfl⟩
    · exact Or.inr ⟨q.id :: u2, rfl⟩

theorem pathS_elements {qs : List Question} {a b : String} {l : List String}
    (h : PathS qs a l b) : ∀ x ∈ l, ∃ q ∈ qs, q.id = x := by
  induction h with
  | nil => intro x hx; exact absurd hx (by simp)
  | @cons a q l b hq _ _ ih =>
    intro x hx
    rcases List.mem_cons.mp hx with rfl | hx2
    · exact ⟨q, hq, rfl⟩
    · exact ih x hx2

theorem dup_decomp :
    ∀ (l : List String), ¬ l.Nodup →
      ∃ x l1 l2 l3, l = l1 ++ x :: l2 ++ x :: l3 := by
  intro l
  induction l with
  | nil => intro h; exact absurd List.nodup_nil h
  | cons a l ih =>
    intro h
    by_cases ha : a ∈ l
    · obtain ⟨s, t, rfl⟩ := List.append_of_mem ha
      exact ⟨a, [], s, t, rfl⟩
    · have h2 : ¬ l.Nodup := by
        intro hn
        exact h (List.nodup_cons.mpr ⟨ha, hn⟩)
      obtain ⟨x, l1, l2, l3, rfl⟩ := ih h2
      exact ⟨x, a :: l1, l2, l3, rfl⟩

theorem pathS_shorten {qs : List Question} :
    ∀ (n : Nat) (l : List String) (a b : String), l.length ≤ n →
      PathS qs a l b → ∃ l2, l2.Nodup ∧ PathS qs a l2 b := by
  intro n
  induction n with
  | zero =>
    intro l a b hlen hp
    have : l = [] := List.eq_nil_of_length_eq_zero (Nat.le_zero.mp hlen)
    subst this
    exact ⟨[], List.nodup_nil, hp⟩
  | succ n ih =>
    intro l a b hlen hp
    by_cases hnd : l.Nodup
    · exact ⟨l, hnd, hp⟩
    · obtain ⟨x, l1, l2, l3, rfl⟩ := dup_decomp l hnd
      have hre : l1 ++ x :: l2 ++ x :: l3 =
          (l1 ++ [x]) ++ (l2 ++ [x]) ++ l3 := by simp
      rw [hre] at hp
      obtain ⟨m2, p12, p3⟩ := pathS_split ((l1 ++ [x]) ++ (l2 ++ [x])) hp
      obtain ⟨m1, p1, p2⟩ := pathS_split (l1 ++ [x]) p12
      have hm1 : m1 = x := by
        rcases pathS_last p1 with ⟨habs, _⟩ | ⟨u2, hu2⟩
        · exact absurd habs (by simp)
        · have := congrArg List.getLast? hu2
          rw [List.getLast?_concat, List.getLast?_concat] at this
          exact (Option.some.injEq _ _ ▸ this).symm
      have hm2 : m2 = x := by
        rcases pathS_last p2 with ⟨habs, _⟩ | ⟨u2, hu2⟩
        · exact absurd habs (by simp)
        · have := congrArg List.getLast? hu2
          rw [List.getLast?_concat, List.getLast?_concat] at this
          exact (Option.some.injEq _ _ ▸ this).symm
      rw [hm1] at p1
      rw [hm2] at p3
      have pshort : PathS qs a ((l1 ++ [x]) ++ l3) b := pathS_append p1 p3
      have hlen2 : ((l1 ++ [x]) ++ l3).length ≤ n := by
        have h1 : (l1 ++ x :: l2 ++ x :: l3).length ≤ n + 1 := hlen
        simp at h1 ⊢
        omega
      exact ih _ a b hlen2 pshort

theorem reaches_path {qs : List Question} {a b : String}
    (h : Reaches qs a b) : ∃ l, PathS qs a l b := by
  induction h with
  | refl => exact ⟨[], .nil a⟩
  | @step c q _ hq hpid ih =>
    obtain ⟨l, hl⟩ := ih
    exact ⟨l ++ [q.id], pathS_append hl (.cons hq hpid (.nil q.id))⟩

theorem nodup_path_bound {qs : List Question} {l : List String}
    (hnd : l.Nodup) (hel : ∀ x ∈ l, ∃ q ∈ qs, q.id = x) :
    l.length ≤ qs.length := by
  have hsub : l ⊆ qs.map (fun q => q.id) := by
    intro x hx
    obtain ⟨q, hq, hqx⟩ := hel x hx
    exact List.mem_map.mpr ⟨q, hq, hqx⟩
  have := (hnd.subperm hsub).length_le
  simpa using this

/-- C9: deleting a question removes it together with every transitive
descendant and nothing else.  The id set accumulated by
findQuestionsToDelete is exactly the set of ids reachable from the named
id through parentId references, and handleDeleteQuestion keeps the
remaining questions unchanged and in order, as a filter of the working
set.  (The source recursion carries no fuel; the embedding runs it with
enough fuel for every shortest parentId chain.) -/
theorem C9_delete_descendants (qs : List Question) (qid : String) :
    (∀ x, x ∈ findQuestionsToDelete qs (qs.length + 1) qid [] ↔
      Reaches qs qid x) ∧
    handleDeleteQuestion qs qid = qs.filter (fun q =>
      !((findQuestionsToDelete qs (qs.length + 1) qid []).contains q.id)) := by
  refine ⟨?_, rfl⟩
  intro x
  constructor
  · intro hx
    rcases dfs_sound qs _ qid [] x hx with h | h
    · exact absurd h (by simp)
    · exact h
  · intro hr
    obtain ⟨l, hl⟩ := reaches_path hr
    obtain ⟨l2, hnd, hp2⟩ := pathS_shorten l.length l qid x (Nat.le_refl _) hl
    have hlen : l2.length ≤ qs.length := nodup_path_bound hnd (pathS_elements hp2)
    exact dfs_complete qs l2 (qs.length + 1) qid x [] hp2
      (Nat.lt_succ_of_le hlen)

/-! ## C2: order invariant of the linearizer -/

theorem flatMap_split {α β : Type} (F : α → List β) :
    ∀ (l : List α) (u : List β) (w : β) (t : List β),
      l.flatMap F = u ++ w :: t →
      ∃ x ∈ l, ∃ u1 u2 t2, F x = u2 ++ w :: t2 ∧ u = u1 ++ u2 := by
  intro l
  induction l with
  | nil =>
    intro u w t h
    rw [List.flatMap_nil] at h
    exact absurd h.symm (by simp)
  | cons x l ih =>
    intro u w t h
    rw [List.flatMap_cons] at h
    rcases List.append_eq_append_iff.mp h with ⟨a2, hu, hrest⟩ | ⟨c2, hFx, hwt⟩
    · obtain ⟨x2, hx2, u1, u2, t2, hF2, ha2⟩ := ih a2 w t hrest
      exact ⟨x2, List.mem_cons_of_mem _ hx2, F x ++ u1, u2, t2, hF2,
        by rw [hu, ha2, List.append_assoc]⟩
    · cases c2 with
      | nil =>
        obtain ⟨x2, hx2, u1, u2, t2, hF2, hnil⟩ :=
          ih [] w t (by simpa using hwt.symm)
        have hu2 : u2 = [] := (List.append_eq_nil.mp hnil.symm).2
        refine ⟨x2, List.mem_cons_of_mem _ hx2, u, [], t2, ?_, by simp⟩
        rw [hu2] at hF2
        simpa using hF2
      | cons c0 c2 =>
        have hc0 : c0 = w := by
          have := (List.cons.injEq w t c0 (c2 ++ l.flatMap F)).mp hwt
          exact this.1.symm
        refine ⟨x, List.mem_cons_self _ _, [], u, c2, ?_, by simp⟩
        rw [hFx, hc0]

theorem hier_pb (qs : List Question) :
    ∀ (f : Nat) (q : Question) (u : List Question) (w : Question)
      (t : List Question) (v : String),
      hier qs f q = u ++ w :: t → w.parentId = some v → ¬ (v = "") →
      (u = [] ∧ w = q) ∨
      ∃ a ∈ u, a.id = v ∧ ∃ o ∈ optionsOf a, w.parentOptionId = some o.id := by
  intro f
  induction f with
  | zero =>
    intro q u w t v h _ _
    rw [hier] at h
    cases u with
    | nil =>
      rw [List.nil_append] at h
      have := (List.cons.injEq q [] w t).mp h
      exact Or.inl ⟨rfl, this.1.symm⟩
    | cons y u2 =>
      rw [List.cons_append] at h
      have := (List.cons.injEq q [] y (u2 ++ w :: t)).mp h
      exact absurd this.2.symm (by simp)
  | succ f ih =>
    intro q u w t v h hv hv2
    rw [hier] at h
    cases u with
    | nil =>
      rw [List.nil_append] at h
      have := (List.cons.injEq q _ w t).mp h
      exact Or.inl ⟨rfl, this.1.symm⟩
    | cons y u2 =>
      rw [List.cons_append] at h
      have hinj := (List.cons.injEq q _ y (u2 ++ w :: t)).mp h
      have hy : y = q := hinj.1.symm
      have hrest := hinj.2
      obtain ⟨o, ho, u1, u3, t3, hFo, hu2⟩ :=
        flatMap_split _ (optionsOf q) u2 w t hrest
      obtain ⟨s, hs, u4, u5, t5, hhier, hu3⟩ :=
        flatMap_split _ _ u3 w t3 hFo
      rcases ih s u5 w t5 v hhier hv hv2 with ⟨hu5, hws⟩ | ⟨a, ha, hav, hopt⟩
      · have hsmem := List.mem_filter.mp hs
        have hsc : s ∈ childrenOf qs q.id := hsmem.1
        have hspo : s.parentOptionId = some o.id := by simpa using hsmem.2
        have hspar : s.parentId = some q.id := childrenOf_parent hsc
        have hvq : v = q.id := by
          rw [hws, hspar] at hv
          exact (Option.some.injEq _ _).mp hv.symm
        refine Or.inr ⟨q, ?_, hvq.symm, o, ho, ?_⟩
        · rw [hy]; exact List.mem_cons_self _ _
        · rw [hws]; exact hspo
      · refine Or.inr ⟨a, ?_, hav, hopt⟩
        refine List.mem_cons_of_mem _ ?_
        rw [hu2, hu3]
        exact List.mem_append_right _ (List.mem_append_right _ ha)

theorem organize_pb (qs : List Question)
    (u : List Question) (w : Question) (t : List Question) (v : String)
    (h : organize qs = u ++ w :: t) (hv : w.parentId = some v)
    (hv2 : ¬ (v = "")) :
    ∃ a ∈ u, a.id = v ∧ ∃ o ∈ optionsOf a, w.parentOptionId = some o.id := by
  unfold organize at h
  obtain ⟨m, hm, u1, u2, t2, hhier, hu⟩ := flatMap_split _ (mains qs) u w t h
  rcases hier_pb qs _ m u2 w t2 v hhier hv hv2 with ⟨_, hwm⟩ | ⟨a, ha, hrest⟩
  · have hfal := mains_falsy hm
    rw [← hwm, hv] at hfal
    simp [truthyS] at hfal
    exact absurd hfal hv2
  · exact ⟨a, by rw [hu]; exact List.mem_append_right _ ha, hrest⟩

theorem nodup_id_inj {qs : List Question}
    (hnd : (qs.map (fun q => q.id)).Nodup) {a b : Question}
    (ha : a ∈ qs) (hb : b ∈ qs) (hab : a.id = b.id) : a = b :=
  List.inj_on_of_nodup_map hnd ha hb hab

theorem organize_no_self (qs : List Question)
    (hnd : (qs.map (fun q => q.id)).Nodup) :
    ∀ (n : Nat) (u : List Question) (w : Question) (t : List Question)
      (v : String),
      u.length ≤ n → organize qs = u ++ w :: t → w.parentId = some v →
      ¬ (v = "") → ¬ (w.id = v) := by
  intro n
  induction n with
  | zero =>
    intro u w t v hlen h hv hv2 _
    have hu : u = [] := List.eq_nil_of_length_eq_zero (Nat.le_zero.mp hlen)
    subst hu
    obtain ⟨a, ha, _⟩ := organize_pb qs [] w t v h hv hv2
    exact absurd ha (by simp)
  | succ n ih =>
    intro u w t v hlen h hv hv2 hwv
    obtain ⟨a, ha, hav, _⟩ := organize_pb qs u w t v h hv hv2
    have haqs : a ∈ qs :=
      organize_subset qs a (by rw [h]; exact List.mem_append_left _ ha)
    have hwqs : w ∈ qs :=
      organize_subset qs w
        (by rw [h]; exact List.mem_append_right _ (List.mem_cons_self _ _))
    have haw : a = w := nodup_id_inj hnd haqs hwqs (by rw [hav, ← hwv])
    obtain ⟨u1, u2, hu⟩ := List.append_of_mem ha
    have hlen2 : u1.length ≤ n := by
      rw [hu] at hlen
      simp at hlen
      omega
    have h2 : organize qs = u1 ++ a :: (u2 ++ w :: t) := by
      rw [h, hu]
      simp
    exact absurd hav (ih u1 a (u2 ++ w :: t) v hlen2 h2 (by rw [haw]; exact hv)
      hv2)

theorem renumGo_split :
    ∀ (L : List Question) (i : Nat) (m : List (String × String))
      (l1 : List Question) (c : Question) (l2 : List Question),
      renumGo i m L = l1 ++ c :: l2 →
      ∃ P w Q, L = P ++ w :: Q ∧ l1 = renumGo i m P ∧
        c = renumOne (i + P.length) (entriesRev i P ++ m) w := by
  intro L
  induction L with
  | nil =>
    intro i m l1 c l2 h
    rw [renumGo] at h
    exact absurd h.symm (by simp)
  | cons x L ih =>
    intro i m l1 c l2 h
    rw [renumGo] at h
    cases l1 with
    | nil =>
      rw [List.nil_append] at h
      have hinj := (List.cons.injEq _ _ c l2).mp h
      refine ⟨[], x, L, rfl, rfl, ?_⟩
      rw [← hinj.1]
      simp [entriesRev]
    | cons y l1 =>
      rw [List.cons_append] at h
      have hinj := (List.cons.injEq _ _ y (l1 ++ c :: l2)).mp h
      obtain ⟨P, w, Q, hL, hl1, hc⟩ :=
        ih (i + 1) ((x.id, mkId i) :: m) l1 c l2 hinj.2
      refine ⟨x :: P, w, Q, by rw [hL, List.cons_append], ?_, ?_⟩
      · rw [renumGo, ← hinj.1, hl1]
      · rw [hc]
        have hidx : i + 1 + P.length = i + (x :: P).length := by
          simp
          omega
        have hmap : entriesRev (i + 1) P ++ ((x.id, mkId i) :: m) =
            entriesRev i (x :: P) ++ m := by
          rw [entriesRev]
          simp
        rw [hidx, hmap]

theorem renumGo_append :
    ∀ (L1 L2 : List Question) (i : Nat) (m : List (String × String)),
      renumGo i m (L1 ++ L2) =
        renumGo i m L1 ++
          renumGo (i + L1.length) (entriesRev i L1 ++ m) L2 := by
  intro L1
  induction L1 with
  | nil => intro L2 i m; simp [renumGo, entriesRev]
  | cons x L1 ih =>
    intro L2 i m
    rw [List.cons_append, renumGo, renumGo, ih]
    have hidx : i + 1 + L1.length = i + (x :: L1).length := by
      simp
      omega
    have hmap : entriesRev (i + 1) L1 ++ ((x.id, mkId i) :: m) =
        entriesRev i (x :: L1) ++ m := by
      rw [entriesRev]
      simp
    rw [hidx, hmap, List.cons_append]

theorem lookupS_cons (a : String × String) (m : List (String × String))
    (k : String) :
    lookupS (a :: m) k = if a.1 = k then some a.2 else lookupS m k :=
  objGet_cons a m k

theorem lookupS_entriesRev :
    ∀ (P : List Question) (i : Nat) (k r : String),
      lookupS (entriesRev i P) k = some r →
      ∃ P1 x P2, P = P1 ++ x :: P2 ∧ x.id = k ∧ r = mkId (i + P1.length) := by
  intro P
  induction P with
  | nil => intro i k r h; exact absurd h (by simp [entriesRev, lookupS])
  | cons q P ih =>
    intro i k r h
    rw [entriesRev] at h
    unfold lookupS at h
    rw [List.find?_append] at h
    cases hf : (entriesRev (i + 1) P).find? (fun p => p.1 = k) with
    | some e =>
      rw [hf] at h
      have h2 : lookupS (entriesRev (i + 1) P) k = some r := by
        unfold lookupS
        rw [hf]
        simpa using h
      obtain ⟨P1, x, P2, hP, hx, hr⟩ := ih (i + 1) k r h2
      refine ⟨q :: P1, x, P2, by rw [hP, List.cons_append], hx, ?_⟩
      rw [hr]
      congr 1
      simp
      omega
    | none =>
      rw [hf] at h
      by_cases hqk : q.id = k
      · have hr : r = mkId i := by
          simp [hqk] at h
          exact h.symm
        exact ⟨[], q, P, rfl, hqk, by simpa using hr⟩
      · simp [hqk] at h

/-- C2 counterexample: when the working set carries duplicate question
ids (root X with id a, child of itself by id with matching option), the
linearizer terminates and emits a second question whose rewritten
parentId is its own new id q002: no earlier question of the output
carries the id its parentId references, so the strictly-after-parent
invariant fails as stated for arbitrary inputs. -/
theorem C2_order_cex :
    ((reorganizeQuestions [dupX, dupC]).map (fun q => (q.id, q.parentId)) =
      [("q001", none), ("q002", some "q002")]) ∧
    ∀ a ∈ (reorganizeQuestions [dupX, dupC]).take 1, ¬ (a.id = "q002") := by
  exact ⟨by decide, by decide⟩

/-- C2 (amended): for every working set whose question ids are pairwise
distinct, the linearizer output satisfies the order invariant: every
output question carrying a parentId is preceded in the output by a
question carrying exactly that id — the renumbered parent — and the
child parentOptionId names one of the options of that preceding
question. -/
theorem C2_order_amended (qs : List Question)
    (hnd : (qs.map (fun q => q.id)).Nodup)
    (l1 : List Question) (c : Question) (l2 : List Question)
    (hsplit : reorganizeQuestions qs = l1 ++ c :: l2)
    (v : String) (hv : c.parentId = some v) :
    ∃ a ∈ l1, a.id = v ∧ ∃ o ∈ optionsOf a, c.parentOptionId = some o.id := by
  unfold reorganizeQuestions at hsplit
  obtain ⟨P, w, Q, hO, hl1, hc⟩ := renumGo_split _ 0 [] l1 c l2 hsplit
  rw [hc] at hv
  simp only [renumOne] at hv
  by_cases htr : truthyS w.parentId = true
  · rw [if_pos htr] at hv
    cases hw : w.parentId with
    | none => rw [hw] at htr; simp [truthyS] at htr
    | some w0 =>
      have hw0 : ¬ (w0 = "") := by
        rw [hw] at htr
        simpa [truthyS] using htr
      rw [hw] at hv
      simp only [Option.getD_some] at hv
      rw [lookupS_cons] at hv
      have hns : ¬ (w.id = w0) :=
        organize_no_self qs hnd P.length P w Q w0 (Nat.le_refl _) hO hw hw0
      rw [if_neg hns, List.append_nil] at hv
      obtain ⟨P1, x, P2, hP, hxid, hrv⟩ := lookupS_entriesRev P 0 w0 v hv
      obtain ⟨a0, ha0, ha0id, o, ho, hwpo⟩ := organize_pb qs P w Q w0 hO hw hw0
      have hxP : x ∈ P := by
        rw [hP]
        exact List.mem_append_right _ (List.mem_cons_self _ _)
      have hxqs : x ∈ qs :=
        organize_subset qs x (by rw [hO]; exact List.mem_append_left _ hxP)
      have ha0qs : a0 ∈ qs :=
        organize_subset qs a0 (by rw [hO]; exact List.mem_append_left _ ha0)
      have hxa0 : x = a0 := nodup_id_inj hnd hxqs ha0qs (by rw [hxid, ha0id])
      refine ⟨renumOne (0 + P1.length) (entriesRev 0 P1 ++ []) x,
        ?_, ?_, o, ?_, ?_⟩
      · rw [hl1, hP, renumGo_append, renumGo]
        exact List.mem_append_right _ (List.mem_cons_self _ _)
      · simp only [renumOne]
        rw [hrv]
      · have hopts : optionsOf (renumOne (0 + P1.length)
            (entriesRev 0 P1 ++ []) x) = optionsOf x := by
          simp [renumOne, optionsOf]
        rw [hopts, hxa0]
        exact ho
      · rw [hc]
        simpa [renumOne] using hwpo
  · rw [if_neg htr] at hv
    exact absurd hv (by simp)

/-- Witness for the amended C2 at a concrete input: in the canonical
sequence of the example chain, split around the middle question q002, the
theorem produces the preceding root q001 together with its option A that
unlocks q002. -/
theorem C2_order_amended_w :
    ∃ a ∈ [exCanonHead], a.id = "q001" ∧
      ∃ o ∈ optionsOf a, exCanonMid.parentOptionId = some o.id :=
  C2_order_amended exQs (by decide) [exCanonHead] exCanonMid [exCanonLeaf]
    (by decide) "q001" rfl

/-! ## Injectivity of the canonical id format -/

theorem valDigits_append_singleton (xs : List Char) (c : Char) :
    valDigits (xs ++ [c]) = valDigits xs * 10 + (c.toNat - 48) := by
  simp [valDigits, List.foldl_append]

theorem toDigitsCore_acc (b : Nat) :
    ∀ (f n : Nat) (ds : List Char),
      Nat.toDigitsCore b f n ds = Nat.toDigitsCore b f n [] ++ ds := by
  intro f
  induction f with
  | zero => intro n ds; rfl
  | succ f ih =>
    intro n ds
    rw [Nat.toDigitsCore, Nat.toDigitsCore]
    by_cases h0 : n / b = 0
    · simp only [h0, if_true]
      rfl
    · simp only [h0, if_false]
      rw [ih (n / b) [Nat.digitChar (n % b)], ih (n / b) (Nat.digitChar (n % b) :: ds)]
      simp

theorem digitChar_val (m : Nat) (h : m < 10) :
    (Nat.digitChar m).toNat - 48 = m := by
  interval_cases m <;> decide

theorem val_toDigitsCore :
    ∀ (f n : Nat), n < f → valDigits (Nat.toDigitsCore 10 f n []) = n := by
  intro f
  induction f with
  | zero => intro n h; exact absurd h (by omega)
  | succ f ih =>
    intro n h
    rw [Nat.toDigitsCore]
    by_cases h0 : n / 10 = 0
    · simp only [h0, if_true]
      have hn10 : n < 10 := by
        rcases Nat.lt_or_ge n 10 with h2 | h2
        · exact h2
        · exact absurd h0 (by
            have : 0 < n / 10 := Nat.div_pos h2 (by norm_num)
            omega)
      have hmod : n % 10 = n := Nat.mod_eq_of_lt hn10
      simp [valDigits, hmod, digitChar_val n hn10]
    · simp only [h0, if_false]
      rw [toDigitsCore_acc, valDigits_append_singleton]
      have hpos : 0 < n := by
        rcases Nat.eq_zero_or_pos n with rfl | h2
        · exact absurd (by norm_num) h0
        · exact h2
      have hlt : n / 10 < f := by
        have := Nat.div_lt_self hpos (by norm_num : (1 : Nat) < 10)
        omega
      rw [ih _ hlt, digitChar_val _ (Nat.mod_lt _ (by norm_num))]
      omega

theorem repr_val (n : Nat) : valDigits (Nat.repr n).data = n := by
  have : (Nat.repr n).data = Nat.toDigitsCore 10 (n + 1) n [] := rfl
  rw [this]
  exact val_toDigitsCore (n + 1) n (Nat.lt_succ_self n)

theorem valDigits_replicate_zero :
    ∀ (k : Nat) (xs : List Char),
      valDigits (List.replicate k '0' ++ xs) = valDigits xs := by
  intro k
  induction k with
  | zero => intro xs; rfl
  | succ k ih =>
    intro xs
    rw [List.replicate_succ, List.cons_append]
    show valDigits (List.replicate k '0' ++ xs) = valDigits xs
    exact ih xs

theorem pad3_val (n : Nat) : valDigits (pad3 n).data = n := by
  unfold pad3
  dsimp only
  by_cases h : (toString n).length < 3
  · rw [if_pos h]
    have hd : ((String.mk (List.replicate (3 - (toString n).length) '0') ++
        toString n)).data =
        List.replicate (3 - (toString n).length) '0' ++ (toString n).data := by
      rw [String.data_append]
    rw [hd, valDigits_replicate_zero]
    exact repr_val n
  · rw [if_neg h]
    have hd : (("" : String) ++ toString n).data = (toString n).data := by
      rw [String.data_append]
      rfl
    rw [hd]
    exact repr_val n

theorem mkId_inj {i j : Nat} (h : mkId i = mkId j) : i = j := by
  have hd := congrArg String.data h
  unfold mkId at hd
  rw [String.data_append, String.data_append] at hd
  have h2 : (pad3 (i + 1)).data = (pad3 (j + 1)).data := by
    simpa using hd
  have h3 := congrArg valDigits h2
  rw [pad3_val, pad3_val] at h3
  omega

theorem mkId_ne_empty (n : Nat) : ¬ (mkId n = "") := by
  intro h
  have hd := congrArg String.data h
  unfold mkId at hd
  rw [String.data_append] at hd
  simp at hd

/-! ## C3: ancestor-chain structure of the traversal -/

theorem childrenOf_truthy {qs : List Question} {pid : String} {q : Question}
    (h : q ∈ childrenOf qs pid) : ¬ (pid = "") := by
  have hsub := (List.mem_filter.mp h).1
  have htr : truthyS q.parentId = true := by
    have := (List.mem_filter.mp hsub).2
    simpa using this
  have hpid := childrenOf_parent h
  rw [hpid] at htr
  simpa [truthyS] using htr

theorem ancc_mem {qs : List Question} {q : Question} {anc : List Question}
    (h : AncC qs q anc) : q ∈ qs ∧ ∀ a ∈ anc, a ∈ qs := by
  induction h with
  | root hq _ => exact ⟨hq, by simp⟩
  | step _ hq _ _ ih =>
    refine ⟨hq, ?_⟩
    intro a ha
    rcases List.mem_cons.mp ha with rfl | ha2
    · exact ih.1
    · exact ih.2 a ha2

theorem anc_suffix {qs : List Question} {q : Question} {anc : List Question}
    (h : AncC qs q anc) :
    ∀ (u : List Question) (z : Question) (t : List Question),
      anc = u ++ z :: t → AncC qs z t := by
  induction h with
  | root _ _ =>
    intro u z t hsplit
    exact absurd hsplit.symm (by simp)
  | @step q p anc hp hq hpid hne ih =>
    intro u z t hsplit
    cases u with
    | nil =>
      have hinj := (List.cons.injEq p anc z t).mp (by simpa using hsplit)
      rw [← hinj.1, ← hinj.2]
      exact hp
    | cons y u2 =>
      have hinj := (List.cons.injEq p anc y (u2 ++ z :: t)).mp
        (by simpa using hsplit)
      exact ih u2 z t hinj.2

theorem anc_links {qs : List Question} {q : Question} {anc : List Question}
    (h : AncC qs q anc) :
    ∀ (u : List Question) (s : Question) (t : List Question),
      q :: anc = u ++ s :: t →
      (t = [] → truthyS s.parentId = false) ∧
      (∀ (t0 : Question) (t2 : List Question), t = t0 :: t2 →
        s.parentId = some t0.id ∧ ¬ (t0.id = "")) := by
  induction h with
  | @root q hq hf =>
    intro u s t hsplit
    cases u with
    | nil =>
      have hinj := (List.cons.injEq q [] s t).mp (by simpa using hsplit)
      refine ⟨fun _ => ?_, fun t0 t2 ht => ?_⟩
      · rw [← hinj.1]; exact hf
      · rw [← hinj.2] at ht; exact absurd ht (by simp)
    | cons y u2 =>
      have hinj := (List.cons.injEq q [] y (u2 ++ s :: t)).mp
        (by simpa using hsplit)
      exact absurd hinj.2.symm (by simp)
  | @step q p anc hp hq hpid hne ih =>
    intro u s t hsplit
    cases u with
    | nil =>
      have hinj := (List.cons.injEq q (p :: anc) s t).mp
        (by simpa using hsplit)
      refine ⟨fun ht => ?_, fun t0 t2 ht => ?_⟩
      · rw [← hinj.2] at ht; exact absurd ht (by simp)
      · rw [← hinj.2] at ht
        have hinj2 := (List.cons.injEq p anc t0 t2).mp ht
        rw [← hinj.1, ← hinj2.1]
        exact ⟨hpid, hne⟩
    | cons y u2 =>
      have hinj := (List.cons.injEq q (p :: anc) y (u2 ++ s :: t)).mp
        (by simpa using hsplit)
      exact ih u2 s t hinj.2

theorem chain_fresh_aux {qs : List Question}
    (hnd : (qs.map (fun q => q.id)).Nodup) {p : Question}
    {anc : List Question} (h : AncC qs p anc) (hndc : (p :: anc).Nodup)
    {s : Question} (hs : s ∈ qs) (hpar : s.parentId = some p.id)
    (hne : ¬ (p.id = "")) : s ∉ p :: anc := by
  intro hmem
  rcases List.mem_cons.mp hmem with rfl | hanc
  · cases h with
    | root _ hf =>
      rw [hpar] at hf
      simp [truthyS, hne] at hf
    | @step _ p2 anc2 h2 _ hpid2 hne2 =>
      rw [hpar] at hpid2
      have h3 : s.id = p2.id := (Option.some.injEq _ _).mp hpid2
      have hp2p : p2 = s := nodup_id_inj hnd (ancc_mem h2).1 hs h3.symm
      have hin : s ∈ p2 :: anc2 := by
        rw [hp2p]
        exact List.mem_cons_self _ _
      exact (List.nodup_cons.mp hndc).1 hin
  · obtain ⟨u, t, hanc2⟩ := List.append_of_mem hanc
    have hl := anc_links h (p :: u) s t (by rw [hanc2]; simp)
    cases t with
    | nil =>
      have hf := hl.1 rfl
      rw [hpar] at hf
      simp [truthyS, hne] at hf
    | cons t0 t2 =>
      obtain ⟨hp2, _⟩ := hl.2 t0 t2 rfl
      rw [hpar] at hp2
      have h3 : p.id = t0.id := (Option.some.injEq _ _).mp hp2
      have ht0anc : t0 ∈ anc := by
        rw [hanc2]
        exact List.mem_append_right _
          (List.mem_cons_of_mem _ (List.mem_cons_self _ _))
      have ht0qs : t0 ∈ qs := (ancc_mem h).2 t0 ht0anc
      have ht0p : t0 = p := nodup_id_inj hnd ht0qs (ancc_mem h).1 h3.symm
      have hpanc : p ∈ anc := ht0p ▸ ht0anc
      exact (List.nodup_cons.mp hndc).1 hpanc

theorem chain_nodup {qs : List Question}
    (hnd : (qs.map (fun q => q.id)).Nodup) {q : Question}
    {anc : List Question} (h : AncC qs q anc) : (q :: anc).Nodup := by
  induction h with
  | root _ _ => simp
  | step hp hq hpid hne ih =>
    exact List.nodup_cons.mpr ⟨chain_fresh_aux hnd hp ih hq hpid hne, ih⟩

theorem chain_fresh {qs : List Question}
    (hnd : (qs.map (fun q => q.id)).Nodup) {p : Question}
    {anc : List Question} (h : AncC qs p anc) {s : Question} (hs : s ∈ qs)
    (hpar : s.parentId = some p.id) (hne : ¬ (p.id = "")) :
    s ∉ p :: anc :=
  chain_fresh_aux hnd h (chain_nodup hnd h) hs hpar hne

/-! ## C3: generic list machinery -/

theorem flatMap_len_le {α β : Type} (F : α → List β) :
    ∀ (l : List α) (x : α), x ∈ l → (F x).length ≤ (l.flatMap F).length := by
  intro l
  induction l with
  | nil => intro x hx; exact absurd hx (by simp)
  | cons a l ih =>
    intro x hx
    rw [List.flatMap_cons, List.length_append]
    rcases List.mem_cons.mp hx with rfl | hx2
    · exact Nat.le_add_right _ _
    · exact Nat.le_trans (ih x hx2) (Nat.le_add_left _ _)

theorem fm_congr {α β : Type} {l : List α} {F G : α → List β}
    (h : ∀ x ∈ l, F x = G x) : l.flatMap F = l.flatMap G := by
  induction l with
  | nil => rfl
  | cons a l ih =>
    rw [List.flatMap_cons, List.flatMap_cons, h a (List.mem_cons_self _ _),
      ih (fun x hx => h x (List.mem_cons_of_mem _ hx))]

theorem fm_assoc {α β γ : Type} (l : List α) (F : α → List β)
    (G : β → List γ) :
    (l.flatMap F).flatMap G = l.flatMap (fun x => (F x).flatMap G) := by
  induction l with
  | nil => rfl
  | cons a l ih =>
    rw [List.flatMap_cons, List.flatMap_append, ih, List.flatMap_cons]

theorem flatMap_nodup {α β : Type} (F : α → List β) :
    ∀ (l : List α), (∀ x ∈ l, (F x).Nodup) →
      List.Pairwise (fun a b => ∀ y, y ∈ F a → y ∈ F b → False) l →
      (l.flatMap F).Nodup := by
  intro l
  induction l with
  | nil => intro _ _; simp
  | cons a l ih =>
    intro hblocks hpw
    rw [List.flatMap_cons]
    refine List.Nodup.append (hblocks a (List.mem_cons_self _ _))
      (ih (fun x hx => hblocks x (List.mem_cons_of_mem _ hx))
        (List.pairwise_cons.mp hpw).2) ?_
    intro y hy1 hy2
    obtain ⟨b, hb, hyb⟩ := List.mem_flatMap.mp hy2
    exact (List.pairwise_cons.mp hpw).1 b hb y hy1 hyb

theorem nodup_split_unique {α : Type} {x : α} :
    ∀ (u1 : List α) {v1 : List α} (u2 : List α) {v2 : List α},
      (u1 ++ x :: v1).Nodup → u1 ++ x :: v1 = u2 ++ x :: v2 →
      u1 = u2 ∧ v1 = v2 := by
  intro u1
  induction u1 with
  | nil =>
    intro v1 u2 v2 hnd heq
    cases u2 with
    | nil =>
      have := (List.cons.injEq x v1 x v2).mp (by simpa using heq)
      exact ⟨rfl, this.2⟩
    | cons b u2 =>
      have hinj := (List.cons.injEq x v1 b (u2 ++ x :: v2)).mp
        (by simpa using heq)
      have hx : x ∈ v1 := by
        rw [hinj.2]
        exact List.mem_append_right _ (List.mem_cons_self _ _)
      rw [List.nil_append] at hnd
      exact absurd hx (List.nodup_cons.mp hnd).1
  | cons a u1 ih =>
    intro v1 u2 v2 hnd heq
    cases u2 with
    | nil =>
      have hinj := (List.cons.injEq a (u1 ++ x :: v1) x v2).mp
        (by simpa using heq)
      have hx : x ∈ u1 ++ x :: v1 :=
        List.mem_append_right _ (List.mem_cons_self _ _)
      rw [List.cons_append] at hnd
      rw [hinj.1] at hnd
      exact absurd hx (List.nodup_cons.mp hnd).1
    | cons b u2 =>
      have hinj := (List.cons.injEq a (u1 ++ x :: v1) b (u2 ++ x :: v2)).mp
        (by simpa using heq)
      rw [List.cons_append] at hnd
      obtain ⟨h1, h2⟩ := ih u2 (List.nodup_cons.mp hnd).2 hinj.2
      exact ⟨by rw [hinj.1, h1], h2⟩

theorem nodup_subset_length {α : Type} {l qs : List α}
    (hnd : l.Nodup) (hsub : ∀ x ∈ l, x ∈ qs) : l.length ≤ qs.length :=
  (hnd.subperm hsub).length_le

/-! ## C3: positional facts about the renumbering pass -/

theorem renumGo_length :
    ∀ (L : List Question) (i : Nat) (m : List (String × String)),
      (renumGo i m L).length = L.length := by
  intro L
  induction L with
  | nil => intro i m; rfl
  | cons x L ih =>
    intro i m
    rw [renumGo, List.length_cons, List.length_cons, ih]

theorem entriesRev_append :
    ∀ (A B : List Question) (i : Nat),
      entriesRev i (A ++ B) =
        entriesRev (i + A.length) B ++ entriesRev i A := by
  intro A
  induction A with
  | nil => intro B i; simp [entriesRev]
  | cons a A ih =>
    intro B i
    rw [List.cons_append, entriesRev, ih, entriesRev]
    have hidx : i + 1 + A.length = i + (a :: A).length := by
      simp [List.length_cons]
      omega
    rw [hidx, List.append_assoc]

theorem entriesRev_mem_shape :
    ∀ (A : List Question) (i : Nat) (e : String × String),
      e ∈ entriesRev i A →
      ∃ A1 a A2, A = A1 ++ a :: A2 ∧ e = (a.id, mkId (i + A1.length)) := by
  intro A
  induction A with
  | nil => intro i e he; exact absurd he (by simp [entriesRev])
  | cons a A ih =>
    intro i e he
    rw [entriesRev] at he
    rcases List.mem_append.mp he with h1 | h2
    · obtain ⟨A1, b, A2, hA, hE⟩ := ih (i + 1) e h1
      refine ⟨a :: A1, b, A2, by rw [hA, List.cons_append], ?_⟩
      have hidx : i + 1 + A1.length = i + (a :: A1).length := by
        simp [List.length_cons]
        omega
      rw [hE, hidx]
    · have he2 : e = (a.id, mkId i) := by simpa using h2
      exact ⟨[], a, A, rfl, by simpa using he2⟩

theorem entriesRev_mem_of (A1 : List Question) (a : Question)
    (A2 : List Question) (i : Nat) :
    (a.id, mkId (i + A1.length)) ∈ entriesRev i (A1 ++ a :: A2) := by
  rw [entriesRev_append, entriesRev]
  exact List.mem_append_left _ (List.mem_append_right _ (by simp))

theorem renumOne_id (i : Nat) (m : List (String × String)) (q : Question) :
    (renumOne i m q).id = mkId i := rfl

theorem renumOne_po (i : Nat) (m : List (String × String)) (q : Question) :
    (renumOne i m q).parentOptionId = q.parentOptionId := rfl

theorem renumOne_options (i : Nat) (m : List (String × String))
    (q : Question) : optionsOf (renumOne i m q) = optionsOf q := rfl

theorem renumOne_pid_falsy (i : Nat) (m : List (String × String))
    (q : Question) (h : truthyS q.parentId = false) :
    (renumOne i m q).parentId = none := by
  show (if truthyS q.parentId then
      lookupS ((q.id, mkId i) :: m) (q.parentId.getD "") else none) = none
  rw [h]
  rfl

theorem renumOne_pid_cases (P : List Question) (w : Question) (r : String)
    (h : (renumOne P.length (entriesRev 0 P) w).parentId = some r) :
    (r = mkId P.length ∧ w.parentId = some w.id) ∨
    (∃ A a B, P = A ++ a :: B ∧ r = mkId A.length ∧
      w.parentId = some a.id) := by
  have h2 : (if truthyS w.parentId then
      lookupS ((w.id, mkId P.length) :: entriesRev 0 P) (w.parentId.getD "")
      else none) = some r := h
  by_cases ht : truthyS w.parentId
  · rw [if_pos ht] at h2
    cases hw : w.parentId with
    | none => rw [hw] at ht; simp [truthyS] at ht
    | some v =>
      rw [hw] at h2
      simp only [Option.getD_some] at h2
      rw [lookupS_cons] at h2
      by_cases hself : w.id = v
      · rw [if_pos hself] at h2
        have hr : r = mkId P.length := by simpa using h2.symm
        exact Or.inl ⟨hr, by rw [hself]⟩
      · rw [if_neg hself] at h2
        obtain ⟨P1, x, P2, hsplit, hx, hr⟩ :=
          lookupS_entriesRev P 0 v r h2
        refine Or.inr ⟨P1, x, P2, hsplit, by simpa using hr, ?_⟩
        rw [hx]
  · rw [if_neg ht] at h2
    exact absurd h2 (by simp)

theorem renumOne_pid_resolve (A : List Question) (a : Question)
    (B : List Question) (w : Question) (v : String)
    (hw : w.parentId = some v) (hv : ¬ (v = "")) (hne : ¬ (w.id = v))
    (ha : a.id = v) (hB : ∀ b ∈ B, ¬ (b.id = v)) :
    (renumOne (A ++ a :: B).length (entriesRev 0 (A ++ a :: B)) w).parentId
      = some (mkId A.length) := by
  have ht : truthyS w.parentId = true := by rw [hw]; simp [truthyS, hv]
  show (if truthyS w.parentId then
      lookupS ((w.id, mkId (A ++ a :: B).length) ::
        entriesRev 0 (A ++ a :: B)) (w.parentId.getD "") else none)
      = some (mkId A.length)
  rw [if_pos ht, hw]
  simp only [Option.getD_some]
  rw [lookupS_cons, if_neg hne]
  have hBnone : (entriesRev (0 + A.length + 1) B).find?
      (fun p => p.1 = v) = none := by
    apply List.find?_eq_none.mpr
    intro e he
    obtain ⟨B1, b, B2, hBeq, hE⟩ := entriesRev_mem_shape B _ e he
    have hbB : b ∈ B := by
      rw [hBeq]
      exact List.mem_append_right _ (List.mem_cons_self _ _)
    rw [hE]
    simpa using hB b hbB
  unfold lookupS
  rw [entriesRev_append, entriesRev, List.find?_append, List.find?_append,
    hBnone]
  simp [ha]

theorem renumOne_pid_hit (P : List Question) (w : Question) (v : String)
    (hw : w.parentId = some v) (hv : ¬ (v = ""))
    (hmem : w.id = v ∨ ∃ a ∈ P, a.id = v) :
    ∃ t, (renumOne P.length (entriesRev 0 P) w).parentId
      = some (mkId t) := by
  have ht : truthyS w.parentId = true := by rw [hw]; simp [truthyS, hv]
  have hshow : (renumOne P.length (entriesRev 0 P) w).parentId =
      (if truthyS w.parentId then
        lookupS ((w.id, mkId P.length) :: entriesRev 0 P)
          (w.parentId.getD "") else none) := rfl
  rw [hshow, if_pos ht, hw]
  simp only [Option.getD_some]
  rw [lookupS_cons]
  by_cases hself : w.id = v
  · exact ⟨P.length, by rw [if_pos hself]⟩
  · rw [if_neg hself]
    rcases hmem with h | ⟨a, haP, hav⟩
    · exact absurd h hself
    · obtain ⟨A1, A2, hP⟩ := List.append_of_mem haP
      subst hP
      have hsome : ((entriesRev 0 (A1 ++ a :: A2)).find?
          (fun p => p.1 = v)).isSome := by
        rw [List.find?_isSome]
        exact ⟨(a.id, mkId (0 + A1.length)), entriesRev_mem_of A1 a A2 0,
          by simpa using hav⟩
      cases hfind : (entriesRev 0 (A1 ++ a :: A2)).find?
          (fun p => p.1 = v) with
      | none => rw [hfind] at hsome; simp at hsome
      | some e =>
        have hemem : e ∈ entriesRev 0 (A1 ++ a :: A2) :=
          List.mem_of_find?_eq_some hfind
        obtain ⟨B1, b, B2, hBeq, hE⟩ := entriesRev_mem_shape _ 0 e hemem
        refine ⟨0 + B1.length, ?_⟩
        unfold lookupS
        rw [hfind, hE]
        rfl

/-! ## C3: structural recursion of the hierarchy walk -/

theorem mem_chMatch_elim {qs : List Question} {q s : Question}
    (h : s ∈ chMatch qs q) :
    s ∈ childrenOf qs q.id ∧ ∃ o ∈ optionsOf q,
      s.parentOptionId = some o.id := by
  obtain ⟨o, ho, hs⟩ := List.mem_flatMap.mp h
  have hf := List.mem_filter.mp hs
  exact ⟨hf.1, o, ho, by simpa using hf.2⟩

theorem hier_succ_chMatch (qs : List Question) (f : Nat) (q : Question) :
    hier qs (f + 1) q = q :: (chMatch qs q).flatMap (hier qs f) := by
  rw [hier, chMatch, fm_assoc]

theorem hier_length_pos (qs : List Question) (f : Nat) (q : Question) :
    0 < (hier qs f q).length := by
  cases f <;> simp [hier]

theorem hier_stable_down (qs : List Question) :
    ∀ (f : Nat) (q : Question),
      (hier qs (f + 1) q).length ≤ f + 1 →
      hier qs (f + 1) q = hier qs f q := by
  intro f
  induction f with
  | zero =>
    intro q hlen
    rw [hier_succ_chMatch] at hlen ⊢
    have h0 : ((chMatch qs q).flatMap (hier qs 0)).length = 0 := by
      rw [List.length_cons] at hlen
      omega
    rw [List.length_eq_zero] at h0
    rw [h0, hier]
  | succ f ih =>
    intro q hlen
    rw [hier_succ_chMatch] at hlen ⊢
    rw [hier_succ_chMatch]
    congr 1
    apply fm_congr
    intro s hs
    apply ih
    have hle := flatMap_len_le (hier qs (f + 1)) (chMatch qs q) s hs
    rw [List.length_cons] at hlen
    omega

theorem headRenums_append (qs : List Question) (f : Nat) :
    ∀ (A B : List Question) (i : Nat) (m : List (String × String)),
      headRenums qs f i m (A ++ B) =
        headRenums qs f i m A ++
          headRenums qs f (i + (A.flatMap (hier qs f)).length)
            (entriesRev i (A.flatMap (hier qs f)) ++ m) B := by
  intro A
  induction A with
  | nil => intro B i m; simp [headRenums, entriesRev]
  | cons a A ih =>
    intro B i m
    have hidx : i + (hier qs f a).length + (A.flatMap (hier qs f)).length
        = i + ((a :: A).flatMap (hier qs f)).length := by
      rw [List.flatMap_cons, List.length_append]
      omega
    have hmap : entriesRev (i + (hier qs f a).length)
          (A.flatMap (hier qs f)) ++ (entriesRev i (hier qs f a) ++ m)
        = entriesRev i ((a :: A).flatMap (hier qs f)) ++ m := by
      rw [List.flatMap_cons, entriesRev_append, List.append_assoc]
    rw [List.cons_append, headRenums, ih, hidx, hmap, headRenums,
      List.cons_append]

theorem hr_filter_all (qs : List Question) (f : Nat) (oid : String) :
    ∀ (A : List Question) (i : Nat) (m : List (String × String)),
      (∀ s ∈ A, s.parentOptionId = some oid) →
      (headRenums qs f i m A).filter
        (fun x => x.parentOptionId = some oid) = headRenums qs f i m A := by
  intro A
  induction A with
  | nil => intro i m _; rfl
  | cons a A ih =>
    intro i m hall
    have hpa : (renumOne i m a).parentOptionId = some oid := by
      rw [renumOne_po]
      exact hall a (List.mem_cons_self _ _)
    rw [headRenums, List.filter_cons_of_pos]
    · rw [ih _ _ (fun s hs => hall s (List.mem_cons_of_mem _ hs))]
    · simp [hpa]

theorem hr_filter_none (qs : List Question) (f : Nat) (oid : String) :
    ∀ (A : List Question) (i : Nat) (m : List (String × String)),
      (∀ s ∈ A, ¬ (s.parentOptionId = some oid)) →
      (headRenums qs f i m A).filter
        (fun x => x.parentOptionId = some oid) = [] := by
  intro A
  induction A with
  | nil => intro i m _; rfl
  | cons a A ih =>
    intro i m hall
    rw [headRenums, List.filter_cons_of_neg]
    · exact ih _ _ (fun s hs => hall s (List.mem_cons_of_mem _ hs))
    · simpa [renumOne_po] using hall a (List.mem_cons_self _ _)

/-! ## C3: the upward chain relation -/

theorem above_bottom_inv {qs : List Question} {y b : Question}
    (h : AboveQ qs y b) :
    y = b ∨ ∃ p, p ∈ qs ∧ y.parentId = some p.id ∧ ¬ (p.id = "") ∧
      AboveQ qs p b := by
  induction h with
  | refl => exact Or.inl rfl
  | @step y2 p h2 hp hy2 hpid hne ih =>
    rcases ih with rfl | ⟨p2, hp2, hpid2, hne2, hA⟩
    · exact Or.inr ⟨p, hp, hpid, hne, AboveQ.refl p⟩
    · exact Or.inr ⟨p2, hp2, hpid2, hne2, AboveQ.step hA hp hy2 hpid hne⟩

theorem root_above {qs : List Question} {a b : Question}
    (hroot : truthyS a.parentId = false) (h : AboveQ qs a b) : b = a := by
  rcases above_bottom_inv h with rfl | ⟨p, _, hpid, hne, _⟩
  · rfl
  · rw [hpid] at hroot
    simp [truthyS, hne] at hroot

theorem above_linear {qs : List Question}
    (hnd : (qs.map (fun q => q.id)).Nodup) {x a : Question}
    (h1 : AboveQ qs x a) :
    ∀ {b : Question}, AboveQ qs x b → AboveQ qs a b ∨ AboveQ qs b a := by
  induction h1 with
  | refl => intro b hb; exact Or.inl hb
  | @step y p h2 hp hy hpid hne ih =>
    intro b hb
    rcases ih hb with hyb | hby
    · rcases above_bottom_inv hyb with rfl | ⟨p2, hp2, hpid2, hne2, hA⟩
      · exact Or.inr (AboveQ.step (AboveQ.refl y) hp hy hpid hne)
      · have hid : p.id = p2.id := by
          rw [hpid] at hpid2
          exact (Option.some.injEq _ _).mp hpid2
        have hpe : p2 = p := nodup_id_inj hnd hp2 hp hid.symm
        exact Or.inl (hpe ▸ hA)
    · exact Or.inr (AboveQ.step hby hp hy hpid hne)

theorem above_chain {qs : List Question}
    (hnd : (qs.map (fun q => q.id)).Nodup) {q : Question}
    {anc : List Question} (hc : AncC qs q anc) {z : Question}
    (h : AboveQ qs q z) : z ∈ q :: anc := by
  induction h with
  | refl => exact List.mem_cons_self _ _
  | @step y p h2 hp hy hpid hne ih =>
    obtain ⟨u, t, hsplit⟩ := List.append_of_mem ih
    have hl := anc_links hc u y t hsplit
    cases t with
    | nil =>
      have hf := hl.1 rfl
      rw [hpid] at hf
      simp [truthyS, hne] at hf
    | cons t0 t2 =>
      obtain ⟨hpid2, _⟩ := hl.2 t0 t2 rfl
      rw [hpid] at hpid2
      have hid : p.id = t0.id := (Option.some.injEq _ _).mp hpid2
      have ht0mem : t0 ∈ q :: anc := by
        rw [hsplit]
        exact List.mem_append_right _
          (List.mem_cons_of_mem _ (List.mem_cons_self _ _))
      have ht0qs : t0 ∈ qs := by
        rcases List.mem_cons.mp ht0mem with rfl | h3
        · exact (ancc_mem hc).1
        · exact (ancc_mem hc).2 _ h3
      have ht0p : t0 = p := nodup_id_inj hnd ht0qs hp hid.symm
      rw [← ht0p]
      exact ht0mem

theorem hier_above (qs : List Question) :
    ∀ (f : Nat) (r x : Question), r ∈ qs → x ∈ hier qs f r →
      AboveQ qs x r := by
  intro f
  induction f with
  | zero =>
    intro r x hr hx
    rw [hier] at hx
    have hxr : x = r := by simpa using hx
    rw [hxr]
    exact AboveQ.refl r
  | succ f ih =>
    intro r x hr hx
    rw [hier_succ_chMatch] at hx
    rcases List.mem_cons.mp hx with rfl | hx2
    · exact AboveQ.refl x
    · obtain ⟨s, hs, hx3⟩ := List.mem_flatMap.mp hx2
      obtain ⟨hsc, _⟩ := mem_chMatch_elim hs
      have hsqs : s ∈ qs := childrenOf_subset hsc
      exact AboveQ.step (ih s x hsqs hx3) hr hsqs (childrenOf_parent hsc)
        (childrenOf_truthy hsc)

theorem rooted_no_self {qs : List Question}
    (hnd : (qs.map (fun q => q.id)).Nodup) {q : Question}
    {anc : List Question} (hc : AncC qs q anc) (hqne : ¬ (q.id = "")) :
    ¬ (q.parentId = some q.id) := by
  intro hself
  have hcn := chain_nodup hnd hc
  cases hc with
  | root _ hf =>
    rw [hself] at hf
    simp [truthyS, hqne] at hf
  | @step _ p anc2 hp hq hpid hne =>
    rw [hself] at hpid
    have hid : q.id = p.id := (Option.some.injEq _ _).mp hpid
    have hpe : p = q := nodup_id_inj hnd (ancc_mem hp).1 hq hid.symm
    rw [hpe] at hcn
    exact (List.nodup_cons.mp hcn).1 (List.mem_cons_self _ _)

theorem not_mem_subtree {qs : List Question}
    (hnd : (qs.map (fun q => q.id)).Nodup) {q : Question}
    {anc : List Question} (hc : AncC qs q anc) {s : Question}
    (hs : s ∈ childrenOf qs q.id) {a : Question} (ha : a ∈ q :: anc)
    (f : Nat) : a ∉ hier qs f s := by
  intro hmem
  have hsqs : s ∈ qs := childrenOf_subset hs
  have hA : AboveQ qs a s := hier_above qs f s a hsqs hmem
  have hspar : s.parentId = some q.id := childrenOf_parent hs
  have hqne : ¬ (q.id = "") := childrenOf_truthy hs
  rcases List.mem_cons.mp ha with rfl | ha2
  · exact chain_fresh hnd hc hsqs hspar hqne (above_chain hnd hc hA)
  · obtain ⟨u, t, hsplit⟩ := List.append_of_mem ha2
    have hct : AncC qs a t := anc_suffix hc u a t hsplit
    have hin := above_chain hnd hct hA
    have hsub : s ∈ q :: anc := by
      rcases List.mem_cons.mp hin with rfl | h3
      · exact List.mem_cons_of_mem _ ha2
      · refine List.mem_cons_of_mem _ ?_
        rw [hsplit]
        exact List.mem_append_right _ (List.mem_cons_of_mem _ h3)
    exact chain_fresh hnd hc hsqs hspar hqne hsub

theorem subtree_half {qs : List Question}
    (hnd : (qs.map (fun q => q.id)).Nodup) {q : Question}
    {anc : List Question} (hc : AncC qs q anc) {s1 s2 : Question}
    (hs1 : s1 ∈ childrenOf qs q.id) (hs2 : s2 ∈ childrenOf qs q.id)
    (hne12 : ¬ (s1 = s2)) (hA : AboveQ qs s1 s2) : False := by
  rcases above_bottom_inv hA with rfl | ⟨p, hp, hpid, hpne, hA2⟩
  · exact hne12 rfl
  · have hspar : s1.parentId = some q.id := childrenOf_parent hs1
    rw [hspar] at hpid
    have hid : q.id = p.id := (Option.some.injEq _ _).mp hpid
    have hpe : p = q := nodup_id_inj hnd hp (ancc_mem hc).1 hid.symm
    rw [hpe] at hA2
    exact chain_fresh hnd hc (childrenOf_subset hs2)
      (childrenOf_parent hs2) (childrenOf_truthy hs2)
      (above_chain hnd hc hA2)

theorem subtree_disjoint {qs : List Question}
    (hnd : (qs.map (fun q => q.id)).Nodup) {q : Question}
    {anc : List Question} (hc : AncC qs q anc) {s1 s2 : Question}
    (hs1 : s1 ∈ childrenOf qs q.id) (hs2 : s2 ∈ childrenOf qs q.id)
    (hne12 : ¬ (s1 = s2)) {y : Question} (f g : Nat)
    (hy1 : y ∈ hier qs f s1) (hy2 : y ∈ hier qs g s2) : False := by
  have hA1 : AboveQ qs y s1 :=
    hier_above qs f s1 y (childrenOf_subset hs1) hy1
  have hA2 : AboveQ qs y s2 :=
    hier_above qs g s2 y (childrenOf_subset hs2) hy2
  rcases above_linear hnd hA1 hA2 with h | h
  · exact subtree_half hnd hc hs1 hs2 hne12 h
  · exact subtree_half hnd hc hs2 hs1 (fun e => hne12 e.symm) h

/-! ## C3: the traversal emits every rooted question exactly once -/

theorem chMatch_nodup {qs : List Question}
    (hnd : (qs.map (fun q => q.id)).Nodup) {q : Question}
    (hopt : ((optionsOf q).map (fun o => o.id)).Nodup) :
    (chMatch qs q).Nodup := by
  have hqnd : qs.Nodup := List.Nodup.of_map _ hnd
  rw [chMatch]
  apply flatMap_nodup
  · intro o ho
    exact (hqnd.filter _).filter _ |>.filter _
  · refine List.Pairwise.imp ?_ (List.pairwise_map.mp hopt)
    intro o1 o2 hne y hy1 hy2
    have h1 := List.mem_filter.mp hy1
    have h2 := List.mem_filter.mp hy2
    have e1 : y.parentOptionId = some o1.id := by simpa using h1.2
    have e2 : y.parentOptionId = some o2.id := by simpa using h2.2
    rw [e1] at e2
    exact hne ((Option.some.injEq _ _).mp e2)

theorem hier_nodup {qs : List Question}
    (hnd : (qs.map (fun q => q.id)).Nodup)
    (hopt : ∀ x ∈ qs, ((optionsOf x).map (fun o => o.id)).Nodup) :
    ∀ (f : Nat) {q : Question} {anc : List Question}, AncC qs q anc →
      (hier qs f q).Nodup := by
  intro f
  induction f with
  | zero =>
    intro q anc hc
    rw [hier]
    simp
  | succ f ih =>
    intro q anc hc
    rw [hier_succ_chMatch]
    refine List.nodup_cons.mpr ⟨?_, ?_⟩
    · intro hmem
      obtain ⟨s, hs, hmem2⟩ := List.mem_flatMap.mp hmem
      exact not_mem_subtree hnd hc (mem_chMatch_elim hs).1
        (List.mem_cons_self _ _) f hmem2
    · apply flatMap_nodup
      · intro s hs
        have hsc := (mem_chMatch_elim hs).1
        exact ih (AncC.step hc (childrenOf_subset hsc)
          (childrenOf_parent hsc) (childrenOf_truthy hsc))
      · have hcnd : (chMatch qs q).Nodup :=
          chMatch_nodup hnd (hopt q (ancc_mem hc).1)
        refine List.Pairwise.imp_of_mem ?_ hcnd
        intro s1 s2 hs1 hs2 hne y hy1 hy2
        exact subtree_disjoint hnd hc (mem_chMatch_elim hs1).1
          (mem_chMatch_elim hs2).1 hne f f hy1 hy2

theorem organize_nodup {qs : List Question}
    (hnd : (qs.map (fun q => q.id)).Nodup)
    (hopt : ∀ x ∈ qs, ((optionsOf x).map (fun o => o.id)).Nodup) :
    (organize qs).Nodup := by
  unfold organize
  apply flatMap_nodup
  · intro m hm
    exact hier_nodup hnd hopt _
      (AncC.root (mains_subset hm) (mains_falsy hm))
  · have hmnd : (mains qs).Nodup := (List.Nodup.of_map _ hnd).filter _
    refine List.Pairwise.imp_of_mem ?_ hmnd
    intro m1 m2 hm1 hm2 hne y hy1 hy2
    have hA1 : AboveQ qs y m1 :=
      hier_above qs _ m1 y (mains_subset hm1) hy1
    have hA2 : AboveQ qs y m2 :=
      hier_above qs _ m2 y (mains_subset hm2) hy2
    rcases above_linear hnd hA1 hA2 with h | h
    · exact hne (root_above (mains_falsy hm1) h).symm
    · exact hne (root_above (mains_falsy hm2) h)

theorem organize_ids_nodup {qs : List Question}
    (hnd : (qs.map (fun q => q.id)).Nodup)
    (hopt : ∀ x ∈ qs, ((optionsOf x).map (fun o => o.id)).Nodup) :
    ((organize qs).map (fun q => q.id)).Nodup := by
  refine List.Nodup.map_on ?_ (organize_nodup hnd hopt)
  intro x hx y hy hxy
  exact nodup_id_inj hnd (organize_subset qs x hx)
    (organize_subset qs y hy) hxy

theorem hier_rooted {qs : List Question} :
    ∀ (f : Nat) {r : Question} {anc : List Question}, AncC qs r anc →
      ∀ {x : Question}, x ∈ hier qs f r → ∃ ancx, AncC qs x ancx := by
  intro f
  induction f with
  | zero =>
    intro r anc hc x hx
    rw [hier] at hx
    have hxr : x = r := by simpa using hx
    exact ⟨anc, hxr ▸ hc⟩
  | succ f ih =>
    intro r anc hc x hx
    rw [hier_succ_chMatch] at hx
    rcases List.mem_cons.mp hx with rfl | hx2
    · exact ⟨anc, hc⟩
    · obtain ⟨s, hs, hx3⟩ := List.mem_flatMap.mp hx2
      have hsc := (mem_chMatch_elim hs).1
      exact ih (AncC.step hc (childrenOf_subset hsc)
        (childrenOf_parent hsc) (childrenOf_truthy hsc)) hx3

theorem organize_rooted {qs : List Question} {x : Question}
    (hx : x ∈ organize qs) : ∃ ancx, AncC qs x ancx := by
  obtain ⟨m, hm, hx2⟩ := List.mem_flatMap.mp hx
  exact hier_rooted _ (AncC.root (mains_subset hm) (mains_falsy hm)) hx2

theorem hier_parent {qs : List Question} :
    ∀ (f : Nat) {r : Question}, r ∈ qs → ∀ {x : Question},
      x ∈ hier qs f r → x = r ∨
      ∃ p, p ∈ hier qs f r ∧ p ∈ qs ∧ ¬ (p.id = "") ∧
        x.parentId = some p.id ∧
        ∃ o ∈ optionsOf p, x.parentOptionId = some o.id := by
  intro f
  induction f with
  | zero =>
    intro r hr x hx
    rw [hier] at hx
    exact Or.inl (by simpa using hx)
  | succ f ih =>
    intro r hr x hx
    rw [hier] at hx
    rcases List.mem_cons.mp hx with rfl | hx2
    · exact Or.inl rfl
    · obtain ⟨o, ho, hx3⟩ := List.mem_flatMap.mp hx2
      obtain ⟨s, hs, hx4⟩ := List.mem_flatMap.mp hx3
      have hsf := List.mem_filter.mp hs
      have hsc : s ∈ childrenOf qs r.id := hsf.1
      have hso : s.parentOptionId = some o.id := by simpa using hsf.2
      have hsqs : s ∈ qs := childrenOf_subset hsc
      rcases ih hsqs hx4 with rfl | ⟨p, hp, hpqs, hpne, hpid, o2, ho2, hpo2⟩
      · refine Or.inr ⟨r, ?_, hr, childrenOf_truthy hsc,
          childrenOf_parent hsc, o, ho, hso⟩
        rw [hier]
        exact List.mem_cons_self _ _
      · refine Or.inr ⟨p, ?_, hpqs, hpne, hpid, o2, ho2, hpo2⟩
        rw [hier]
        refine List.mem_cons_of_mem _ ?_
        exact List.mem_flatMap.mpr ⟨o, ho, List.mem_flatMap.mpr ⟨s, hs, hp⟩⟩

theorem organize_parent {qs : List Question} {x : Question}
    (hx : x ∈ organize qs) :
    truthyS x.parentId = false ∨
    ∃ p, p ∈ organize qs ∧ p ∈ qs ∧ ¬ (p.id = "") ∧
      x.parentId = some p.id ∧
      ∃ o ∈ optionsOf p, x.parentOptionId = some o.id := by
  obtain ⟨m, hm, hx2⟩ := List.mem_flatMap.mp hx
  rcases hier_parent _ (mains_subset hm) hx2 with rfl | ⟨p, hp, hrest⟩
  · exact Or.inl (mains_falsy hm)
  · exact Or.inr ⟨p, List.mem_flatMap.mpr ⟨m, hm, hp⟩, hrest⟩

theorem block_unfold {qs : List Question}
    (hnd : (qs.map (fun q => q.id)).Nodup)
    (hopt : ∀ x ∈ qs, ((optionsOf x).map (fun o => o.id)).Nodup)
    {q : Question} {anc : List Question} (hc : AncC qs q anc) :
    hier qs qs.length q =
      q :: (chMatch qs q).flatMap (hier qs qs.length) := by
  have hq : q ∈ qs := (ancc_mem hc).1
  cases hn : qs.length with
  | zero =>
    exact absurd hq (by rw [List.length_eq_zero] at hn; rw [hn]; simp)
  | succ n2 =>
    rw [hier_succ_chMatch]
    congr 1
    apply fm_congr
    intro s hs
    have hsc := (mem_chMatch_elim hs).1
    have hcs : AncC qs s (q :: anc) := AncC.step hc
      (childrenOf_subset hsc) (childrenOf_parent hsc)
      (childrenOf_truthy hsc)
    have hlen : (hier qs (n2 + 1) s).length ≤ n2 + 1 := by
      rw [← hn]
      exact nodup_subset_length (hier_nodup hnd hopt _ hcs)
        (fun x hx => hier_mem_subset qs _ s x (childrenOf_subset hsc) hx)
    exact (hier_stable_down qs n2 s hlen).symm

theorem hier_cons (qs : List Question) (f : Nat) (q : Question) :
    ∃ tl, hier qs f q = q :: tl := by
  cases f with
  | zero => exact ⟨[], rfl⟩
  | succ f => exact ⟨_, hier_succ_chMatch qs f q⟩

/-! ## C3: a filter of the renumbered output that keeps exactly the heads
of consecutive hierarchy blocks returns the renumbered heads -/

theorem filter_heads (qs L : List Question) (p : Question → Bool) :
    ∀ (CH P1 Q1 : List Question),
      L = P1 ++ CH.flatMap (hier qs qs.length) ++ Q1 →
      (∀ s ∈ CH, (hier qs qs.length s).Nodup) →
      (∀ s ∈ CH, ∀ (P2 Q2 : List Question), L = P2 ++ s :: Q2 →
        p (renumOne P2.length (entriesRev 0 P2) s) = true) →
      (∀ s ∈ CH, ∀ (w : Question), w ∈ hier qs qs.length s → ¬ (w = s) →
        ∀ (P2 Q2 : List Question), L = P2 ++ w :: Q2 →
        p (renumOne P2.length (entriesRev 0 P2) w) = false) →
      (renumGo P1.length (entriesRev 0 P1)
          (CH.flatMap (hier qs qs.length))).filter p
        = headRenums qs qs.length P1.length (entriesRev 0 P1) CH := by
  intro CH
  induction CH with
  | nil =>
    intro P1 Q1 _ _ _ _
    rfl
  | cons s CH2 ih =>
    intro P1 Q1 hL hnodup hhead htail
    obtain ⟨tl, htl⟩ := hier_cons qs qs.length s
    have hL2 : L = P1 ++ (hier qs qs.length s ++
        CH2.flatMap (hier qs qs.length)) ++ Q1 := by
      rw [hL, List.flatMap_cons]
    rw [List.flatMap_cons, renumGo_append, List.filter_append, headRenums]
    have hfirst : (renumGo P1.length (entriesRev 0 P1)
        (hier qs qs.length s)).filter p
        = [renumOne P1.length (entriesRev 0 P1) s] := by
      rw [htl, renumGo]
      rw [List.filter_cons_of_pos]
      · have hnil : (renumGo (P1.length + 1)
            ((s.id, mkId P1.length) :: entriesRev 0 P1) tl).filter p
            = [] := by
          apply List.filter_eq_nil.mpr
          intro x hx
          obtain ⟨l1, l2, hxs⟩ := List.append_of_mem hx
          obtain ⟨T1, w, T2, htls, hl1, hxval⟩ :=
            renumGo_split tl (P1.length + 1)
              ((s.id, mkId P1.length) :: entriesRev 0 P1) l1 x l2 hxs
          have hidx2 : P1.length + 1 + T1.length
              = (P1 ++ s :: T1).length := by
            simp [List.length_append]
            omega
          have hmap2 : entriesRev (P1.length + 1) T1 ++
              ((s.id, mkId P1.length) :: entriesRev 0 P1)
              = entriesRev 0 (P1 ++ s :: T1) := by
            rw [entriesRev_append, entriesRev, Nat.zero_add,
              List.append_assoc, List.singleton_append]
          have hwtl : w ∈ hier qs qs.length s := by
            rw [htl]
            refine List.mem_cons_of_mem _ ?_
            rw [htls]
            exact List.mem_append_right _ (List.mem_cons_self _ _)
          have hwns : ¬ (w = s) := by
            intro he
            have hnd := hnodup s (List.mem_cons_self _ _)
            rw [htl] at hnd
            have hstl : s ∈ tl := by
              rw [htls, ← he]
              exact List.mem_append_right _ (List.mem_cons_self _ _)
            exact (List.nodup_cons.mp hnd).1 hstl
          have hfalse := htail s (List.mem_cons_self _ _) w hwtl hwns
            (P1 ++ s :: T1)
            (T2 ++ (CH2.flatMap (hier qs qs.length) ++ Q1))
            (by
              rw [hL2, htl, htls]
              simp only [List.cons_append, List.append_assoc])
          rw [hxval, hidx2, hmap2, hfalse]
          simp
        rw [hnil]
      · exact hhead s (List.mem_cons_self _ _) P1
          (tl ++ (CH2.flatMap (hier qs qs.length) ++ Q1))
          (by
            rw [hL2, htl]
            simp only [List.cons_append, List.append_assoc])
    rw [hfirst]
    have hidx : P1.length + (hier qs qs.length s).length
        = (P1 ++ hier qs qs.length s).length := by
      rw [List.length_append]
    have hmap : entriesRev P1.length (hier qs qs.length s) ++
        entriesRev 0 P1 = entriesRev 0 (P1 ++ hier qs qs.length s) := by
      rw [entriesRev_append, Nat.zero_add]
    rw [hidx, hmap]
    rw [ih (P1 ++ hier qs qs.length s) Q1
      (by rw [hL2]; simp only [List.append_assoc])
      (fun a ha => hnodup a (List.mem_cons_of_mem _ ha))
      (fun a ha => hhead a (List.mem_cons_of_mem _ ha))
      (fun a ha => htail a (List.mem_cons_of_mem _ ha))]
    rw [List.singleton_append]

theorem renumOne_pid_truthy (i : Nat) (m : List (String × String))
    (w : Question) (r : String)
    (h : (renumOne i m w).parentId = some r) :
    truthyS w.parentId = true := by
  have h2 : (if truthyS w.parentId then
      lookupS ((w.id, mkId i) :: m) (w.parentId.getD "") else none)
      = some r := h
  by_cases ht : truthyS w.parentId
  · exact ht
  · rw [if_neg ht] at h2
    exact absurd h2 (by simp)

theorem renumOne_pid_le (P2 : List Question) (w : Question) (t : Nat)
    (h : (renumOne P2.length (entriesRev 0 P2) w).parentId
      = some (mkId t)) : t ≤ P2.length := by
  rcases renumOne_pid_cases P2 w (mkId t) h with ⟨he, _⟩ |
    ⟨A, a, B2, hsplit, he, _⟩
  · have h2 := mkId_inj he
    omega
  · have h2 := mkId_inj he
    have hlen : A.length ≤ P2.length := by
      rw [hsplit]
      simp only [List.length_append, List.length_cons]
      omega
    omega

theorem childrenOf_as_filter (l : List Question) (pid : String)
    (hpid : ¬ (pid = "")) :
    childrenOf l pid = l.filter (fun x => x.parentId = some pid) := by
  unfold childrenOf subsQ
  rw [List.filter_filter]
  apply List.filter_congr
  intro x _
  by_cases he : x.parentId = some pid
  · simp [he, truthyS, hpid]
  · simp [he]

theorem nodup_map_id_skip {L P3 R : List Question} {q2 : Question}
    (hLnd : (L.map (fun x => x.id)).Nodup) (hsplit : L = P3 ++ q2 :: R) :
    ∀ b ∈ R, ¬ (b.id = q2.id) := by
  intro b hb heq
  rw [hsplit, List.map_append, List.map_cons] at hLnd
  have h2 := (List.nodup_append.mp hLnd).2.1
  have hbm : q2.id ∈ R.map (fun x => x.id) :=
    List.mem_map.mpr ⟨b, hb, heq⟩
  exact (List.nodup_cons.mp h2).1 hbm

theorem mem_chMatch_intro {qs : List Question} {q s : Question}
    (hs : s ∈ qs) (hpar : s.parentId = some q.id) (hne : ¬ (q.id = ""))
    {o : Opt} (ho : o ∈ optionsOf q) (hpo : s.parentOptionId = some o.id) :
    s ∈ chMatch qs q := by
  rw [chMatch]
  refine List.mem_flatMap.mpr ⟨o, ho, ?_⟩
  refine List.mem_filter.mpr ⟨?_, by simpa using hpo⟩
  refine List.mem_filter.mpr ⟨?_, by simpa using hpar⟩
  refine List.mem_filter.mpr ⟨hs, ?_⟩
  rw [hpar]
  simp [truthyS, hne]

theorem filter_rest (qs L : List Question) (p : Question → Bool)
    (R P1 T : List Question) (hLr : L = P1 ++ R ++ T)
    (hall : ∀ w ∈ R, ∀ (P2 Q2 : List Question), L = P2 ++ w :: Q2 →
      p (renumOne P2.length (entriesRev 0 P2) w) = false) :
    (renumGo P1.length (entriesRev 0 P1) R).filter p = [] := by
  apply List.filter_eq_nil.mpr
  intro x hx
  obtain ⟨l1, l2, hxs⟩ := List.append_of_mem hx
  obtain ⟨U1, w, U2, hU, hl1, hxval⟩ :=
    renumGo_split R P1.length (entriesRev 0 P1) l1 x l2 hxs
  have hidx : P1.length + U1.length = (P1 ++ U1).length :=
    (List.length_append _ _).symm
  have hmap : entriesRev P1.length U1 ++ entriesRev 0 P1
      = entriesRev 0 (P1 ++ U1) := by
    rw [entriesRev_append, Nat.zero_add]
  have hw : w ∈ R := by
    rw [hU]
    exact List.mem_append_right _ (List.mem_cons_self _ _)
  have hfalse := hall w hw (P1 ++ U1) (U2 ++ T)
    (by
      rw [hLr, hU]
      simp only [List.append_assoc, List.cons_append])
  rw [hxval, hidx, hmap, hfalse]
  simp

/-! ## C3: resolution of parentId references in the renumbered output -/

theorem char_head_true {qs : List Question}
    (hnd : (qs.map (fun x => x.id)).Nodup)
    (hopt : ∀ x ∈ qs, ((optionsOf x).map (fun o => o.id)).Nodup)
    {q : Question} {anc : List Question} (hc : AncC qs q anc)
    {P Q : List Question}
    (hL : organize qs = P ++ hier qs qs.length q ++ Q) :
    ∀ s ∈ chMatch qs q, ∀ (P2 Q2 : List Question),
      organize qs = P2 ++ s :: Q2 →
      (renumOne P2.length (entriesRev 0 P2) s).parentId
        = some (mkId P.length) := by
  intro s hs P2 Q2 hsplit
  have hq : q ∈ qs := (ancc_mem hc).1
  have hB := block_unfold hnd hopt hc
  have hL2 : organize qs = P ++ q :: ((chMatch qs q).flatMap
      (hier qs qs.length) ++ Q) := by
    rw [hL, hB]
    simp only [List.cons_append, List.append_assoc]
  have hsBt : s ∈ (chMatch qs q).flatMap (hier qs qs.length) :=
    List.mem_flatMap.mpr ⟨s, hs, hier_self_mem qs _ s⟩
  obtain ⟨B1, B2, hBt⟩ := List.append_of_mem hsBt
  have hL3 : organize qs = (P ++ q :: B1) ++ s :: (B2 ++ Q) := by
    rw [hL2, hBt]
    simp only [List.cons_append, List.append_assoc]
  have hLnd : (organize qs).Nodup := organize_nodup hnd hopt
  have huniq := nodup_split_unique (P ++ q :: B1) P2
    (by rw [← hL3]; exact hLnd) (by rw [← hL3, ← hsplit])
  have hsc := (mem_chMatch_elim hs).1
  have hspar : s.parentId = some q.id := childrenOf_parent hsc
  have hqne : ¬ (q.id = "") := childrenOf_truthy hsc
  have hsne : ¬ (s.id = q.id) := by
    intro he
    have hseq : s = q := nodup_id_inj hnd (childrenOf_subset hsc) hq he
    rw [hseq] at hspar
    exact rooted_no_self hnd hc hqne hspar
  have hLq : organize qs = P ++ q :: (B1 ++ s :: (B2 ++ Q)) := by
    rw [hL3]
    simp only [List.cons_append, List.append_assoc]
  have hskip := nodup_map_id_skip (organize_ids_nodup hnd hopt) hLq
  have hB1 : ∀ b ∈ B1, ¬ (b.id = q.id) := fun b hb =>
    hskip b (List.mem_append_left _ hb)
  have hres := renumOne_pid_resolve P q B1 s q.id hspar hqne hsne rfl hB1
  rw [← huniq.1]
  exact hres

theorem char_tail_false {qs : List Question}
    (hnd : (qs.map (fun x => x.id)).Nodup)
    (hopt : ∀ x ∈ qs, ((optionsOf x).map (fun o => o.id)).Nodup)
    {q : Question} {anc : List Question} (hc : AncC qs q anc)
    {P Q : List Question}
    (hL : organize qs = P ++ hier qs qs.length q ++ Q) :
    ∀ s ∈ chMatch qs q, ∀ (w : Question),
      w ∈ hier qs qs.length s → ¬ (w = s) →
      ∀ (P2 Q2 : List Question), organize qs = P2 ++ w :: Q2 →
      ¬ ((renumOne P2.length (entriesRev 0 P2) w).parentId
        = some (mkId P.length)) := by
  intro s hs w hw hwns P2 Q2 hsplit hcontra
  have hq : q ∈ qs := (ancc_mem hc).1
  have hsc := (mem_chMatch_elim hs).1
  have hB := block_unfold hnd hopt hc
  have hL2 : organize qs = P ++ q :: ((chMatch qs q).flatMap
      (hier qs qs.length) ++ Q) := by
    rw [hL, hB]
    simp only [List.cons_append, List.append_assoc]
  have hwBt : w ∈ (chMatch qs q).flatMap (hier qs qs.length) :=
    List.mem_flatMap.mpr ⟨s, hs, hw⟩
  obtain ⟨B1, B2, hBt⟩ := List.append_of_mem hwBt
  have hL3 : organize qs = (P ++ q :: B1) ++ w :: (B2 ++ Q) := by
    rw [hL2, hBt]
    simp only [List.cons_append, List.append_assoc]
  have hLnd : (organize qs).Nodup := organize_nodup hnd hopt
  have huniq := nodup_split_unique (P ++ q :: B1) P2
    (by rw [← hL3]; exact hLnd) (by rw [← hL3, ← hsplit])
  rcases renumOne_pid_cases P2 w (mkId P.length) hcontra with
    ⟨he, hself⟩ | ⟨A, a, B3, hsplit2, he, hwp⟩
  · have h1 := mkId_inj he
    have h2 : P2.length = P.length + 1 + B1.length := by
      rw [← huniq.1]
      simp only [List.length_append, List.length_cons]
      omega
    omega
  · have h1 := mkId_inj he
    have hP2 : A ++ a :: B3 = P ++ q :: B1 := by
      rw [← hsplit2]
      exact huniq.1.symm
    obtain ⟨hAP, hrest⟩ := List.append_inj hP2 h1.symm
    have haq : a = q := ((List.cons.injEq a B3 q B1).mp hrest).1
    rw [haq] at hwp
    rcases hier_parent qs.length (childrenOf_subset hsc) hw with
      rfl | ⟨pp, hppmem, hppqs, hppne, hppid, _⟩
    · exact hwns rfl
    · rw [hwp] at hppid
      have hpq : pp = q := nodup_id_inj hnd hppqs hq
        ((Option.some.injEq _ _).mp hppid).symm
      rw [hpq] at hppmem
      exact not_mem_subtree hnd hc hsc (List.mem_cons_self _ _)
        qs.length hppmem

theorem char_after_false {qs : List Question}
    (hnd : (qs.map (fun x => x.id)).Nodup)
    (hopt : ∀ x ∈ qs, ((optionsOf x).map (fun o => o.id)).Nodup)
    {q : Question} {anc : List Question} (hc : AncC qs q anc)
    {P Q : List Question}
    (hL : organize qs = P ++ hier qs qs.length q ++ Q) :
    ∀ w ∈ Q, ∀ (P2 Q2 : List Question), organize qs = P2 ++ w :: Q2 →
      ¬ ((renumOne P2.length (entriesRev 0 P2) w).parentId
        = some (mkId P.length)) := by
  intro w hwQ P2 Q2 hsplit hcontra
  have hq : q ∈ qs := (ancc_mem hc).1
  have hB := block_unfold hnd hopt hc
  have hL2 : organize qs = P ++ q :: ((chMatch qs q).flatMap
      (hier qs qs.length) ++ Q) := by
    rw [hL, hB]
    simp only [List.cons_append, List.append_assoc]
  obtain ⟨U1, U2, hU⟩ := List.append_of_mem hwQ
  have hL3 : organize qs = (P ++ q :: ((chMatch qs q).flatMap
      (hier qs qs.length) ++ U1)) ++ w :: U2 := by
    rw [hL2, hU]
    simp only [List.cons_append, List.append_assoc]
  have hLnd : (organize qs).Nodup := organize_nodup hnd hopt
  have huniq := nodup_split_unique
    (P ++ q :: ((chMatch qs q).flatMap (hier qs qs.length) ++ U1)) P2
    (by rw [← hL3]; exact hLnd) (by rw [← hL3, ← hsplit])
  rcases renumOne_pid_cases P2 w (mkId P.length) hcontra with
    ⟨he, hself⟩ | ⟨A, a, B3, hsplit2, he, hwp⟩
  · have h1 := mkId_inj he
    have h2 : P.length < P2.length := by
      rw [← huniq.1]
      simp only [List.length_append, List.length_cons]
      omega
    omega
  · have h1 := mkId_inj he
    have hP2 : A ++ a :: B3 = P ++ q :: ((chMatch qs q).flatMap
        (hier qs qs.length) ++ U1) := by
      rw [← hsplit2]
      exact huniq.1.symm
    obtain ⟨hAP, hrest⟩ := List.append_inj hP2 h1.symm
    have haq : a = q := ((List.cons.injEq a B3 q _).mp hrest).1
    rw [haq] at hwp
    have htw : truthyS w.parentId = true :=
      renumOne_pid_truthy P2.length (entriesRev 0 P2) w _ hcontra
    have hqne : ¬ (q.id = "") := by
      rw [hwp] at htw
      simpa [truthyS] using htw
    have hwL : w ∈ organize qs := by
      rw [hsplit]
      exact List.mem_append_right _ (List.mem_cons_self _ _)
    rcases organize_parent hwL with hfal |
      ⟨pp, hppL, hppqs, hppne, hwpid, o, ho, hpo⟩
    · rw [htw] at hfal
      exact absurd hfal (by simp)
    · rw [hwp] at hwpid
      have hpq : pp = q := nodup_id_inj hnd hppqs hq
        ((Option.some.injEq _ _).mp hwpid).symm
      rw [hpq] at ho
      have hwqs : w ∈ qs := organize_subset qs w hwL
      have hwch : w ∈ chMatch qs q :=
        mem_chMatch_intro hwqs hwp hqne ho hpo
      have hwBt : w ∈ (chMatch qs q).flatMap (hier qs qs.length) :=
        List.mem_flatMap.mpr ⟨w, hwch, hier_self_mem qs _ w⟩
      rw [hL2] at hLnd
      have hdisj := (List.nodup_append.mp (List.nodup_cons.mp
        (List.nodup_append.mp hLnd).2.1).2).2.2
      exact hdisj hwBt hwQ

theorem char_before_false {qs : List Question}
    (hnd : (qs.map (fun x => x.id)).Nodup)
    (hopt : ∀ x ∈ qs, ((optionsOf x).map (fun o => o.id)).Nodup)
    {q : Question} {anc : List Question} (hc : AncC qs q anc)
    {P Q : List Question}
    (hL : organize qs = P ++ hier qs qs.length q ++ Q) :
    ∀ w ∈ P, ∀ (P2 Q2 : List Question), organize qs = P2 ++ w :: Q2 →
      ¬ ((renumOne P2.length (entriesRev 0 P2) w).parentId
        = some (mkId P.length)) := by
  intro w hwP P2 Q2 hsplit hcontra
  obtain ⟨W1, W2, hW⟩ := List.append_of_mem hwP
  have hL3 : organize qs
      = W1 ++ w :: (W2 ++ hier qs qs.length q ++ Q) := by
    rw [hL, hW]
    simp only [List.cons_append, List.append_assoc]
  have hLnd : (organize qs).Nodup := organize_nodup hnd hopt
  have huniq := nodup_split_unique W1 P2
    (by rw [← hL3]; exact hLnd) (by rw [← hL3, ← hsplit])
  have hle := renumOne_pid_le P2 w P.length hcontra
  have hlen : P2.length < P.length := by
    rw [← huniq.1, hW]
    simp only [List.length_append, List.length_cons]
    omega
  omega

/-! ## C3: the children and mains of the renumbered output -/

theorem char_children {qs : List Question}
    (hnd : (qs.map (fun x => x.id)).Nodup)
    (hopt : ∀ x ∈ qs, ((optionsOf x).map (fun o => o.id)).Nodup)
    {q : Question} {anc : List Question} (hc : AncC qs q anc)
    {P Q : List Question}
    (hL : organize qs = P ++ hier qs qs.length q ++ Q) :
    childrenOf (renumGo 0 [] (organize qs)) (mkId P.length)
      = headRenums qs qs.length (P.length + 1)
        ((q.id, mkId P.length) :: entriesRev 0 P) (chMatch qs q) := by
  have hq : q ∈ qs := (ancc_mem hc).1
  have hB := block_unfold hnd hopt hc
  have hL2 : organize qs = P ++ q :: ((chMatch qs q).flatMap
      (hier qs qs.length) ++ Q) := by
    rw [hL, hB]
    simp only [List.cons_append, List.append_assoc]
  rw [childrenOf_as_filter _ _ (mkId_ne_empty P.length)]
  have hout : renumGo 0 [] (organize qs)
      = renumGo 0 [] P ++ (renumOne P.length (entriesRev 0 P) q ::
          (renumGo (P.length + 1)
              ((q.id, mkId P.length) :: entriesRev 0 P)
              ((chMatch qs q).flatMap (hier qs qs.length)) ++
            renumGo (P.length + 1 + ((chMatch qs q).flatMap
                (hier qs qs.length)).length)
              (entriesRev (P.length + 1) ((chMatch qs q).flatMap
                  (hier qs qs.length)) ++
                ((q.id, mkId P.length) :: entriesRev 0 P)) Q)) := by
    rw [hL, List.append_assoc, renumGo_append, Nat.zero_add,
      List.append_nil, hB, List.cons_append, renumGo, renumGo_append]
  have hOP : (renumGo 0 [] P).filter
      (fun x => x.parentId = some (mkId P.length)) = [] := by
    exact filter_rest qs (organize qs)
      (fun x => x.parentId = some (mkId P.length)) P []
      (hier qs qs.length q ++ Q)
      (by rw [hL]; simp only [List.nil_append, List.append_assoc])
      (fun w hw P2 Q2 hsp => by
        simpa using char_before_false hnd hopt hc hL w hw P2 Q2 hsp)
  have hOB : (renumGo (P.length + 1)
      ((q.id, mkId P.length) :: entriesRev 0 P)
      ((chMatch qs q).flatMap (hier qs qs.length))).filter
      (fun x => x.parentId = some (mkId P.length))
      = headRenums qs qs.length (P.length + 1)
        ((q.id, mkId P.length) :: entriesRev 0 P) (chMatch qs q) := by
    have hidx : P.length + 1 = (P ++ [q]).length := by
      simp
    have hmapb : (q.id, mkId P.length) :: entriesRev 0 P
        = entriesRev 0 (P ++ [q]) := by
      rw [entriesRev_append, entriesRev, entriesRev, Nat.zero_add,
        List.nil_append, List.singleton_append]
    rw [hidx, hmapb]
    exact filter_heads qs (organize qs) _ (chMatch qs q) (P ++ [q]) Q
      (by rw [hL2]; simp only [List.append_assoc, List.cons_append,
        List.singleton_append, List.nil_append])
      (fun s hs => hier_nodup hnd hopt _ (AncC.step hc
        (childrenOf_subset (mem_chMatch_elim hs).1)
        (childrenOf_parent (mem_chMatch_elim hs).1)
        (childrenOf_truthy (mem_chMatch_elim hs).1)))
      (fun s hs P2 Q2 hsp => by
        simp [char_head_true hnd hopt hc hL s hs P2 Q2 hsp])
      (fun s hs w hw hwns P2 Q2 hsp => by
        simpa using char_tail_false hnd hopt hc hL s hs w hw hwns
          P2 Q2 hsp)
  have hOQ : (renumGo (P.length + 1 + ((chMatch qs q).flatMap
      (hier qs qs.length)).length)
      (entriesRev (P.length + 1) ((chMatch qs q).flatMap
          (hier qs qs.length)) ++
        ((q.id, mkId P.length) :: entriesRev 0 P)) Q).filter
      (fun x => x.parentId = some (mkId P.length)) = [] := by
    have hidx : P.length + 1 + ((chMatch qs q).flatMap
        (hier qs qs.length)).length
        = (P ++ q :: (chMatch qs q).flatMap
            (hier qs qs.length)).length := by
      simp only [List.length_append, List.length_cons]
      omega
    have hmapq : entriesRev (P.length + 1) ((chMatch qs q).flatMap
        (hier qs qs.length)) ++ ((q.id, mkId P.length) :: entriesRev 0 P)
        = entriesRev 0 (P ++ q :: (chMatch qs q).flatMap
            (hier qs qs.length)) := by
      rw [entriesRev_append, entriesRev, Nat.zero_add,
        List.append_assoc, List.singleton_append]
    rw [hidx, hmapq]
    exact filter_rest qs (organize qs) _ Q
      (P ++ q :: (chMatch qs q).flatMap (hier qs qs.length)) []
      (by rw [hL2]; simp only [List.append_assoc, List.cons_append,
        List.append_nil])
      (fun w hw P2 Q2 hsp => by
        simpa using char_after_false hnd hopt hc hL w hw P2 Q2 hsp)
  have hcneg : ¬ ((renumOne P.length (entriesRev 0 P) q).parentId
      = some (mkId P.length)) := by
    intro hcontra
    rcases renumOne_pid_cases P q (mkId P.length) hcontra with
      ⟨he, hself⟩ | ⟨A, a, B3, hsplit2, he, hqp⟩
    · have htw := renumOne_pid_truthy P.length (entriesRev 0 P) q _
        hcontra
      rw [hself] at htw
      have hqne : ¬ (q.id = "") := by simpa [truthyS] using htw
      exact rooted_no_self hnd hc hqne hself
    · have h1 := mkId_inj he
      have hlen : A.length < P.length := by
        rw [hsplit2]
        simp only [List.length_append, List.length_cons]
        omega
      omega
  rw [hout, List.filter_append, hOP, List.nil_append,
    List.filter_cons_of_neg, List.filter_append, hOB, hOQ,
    List.append_nil]
  simpa using hcneg

theorem char_mains {qs : List Question}
    (hnd : (qs.map (fun x => x.id)).Nodup)
    (hopt : ∀ x ∈ qs, ((optionsOf x).map (fun o => o.id)).Nodup) :
    mains (renumGo 0 [] (organize qs))
      = headRenums qs qs.length 0 [] (mains qs) := by
  have h := filter_heads qs (organize qs)
    (fun x => truthyS x.parentId = false) (mains qs) [] []
    (by rw [organize]; simp only [List.nil_append, List.append_nil])
    (fun s hs => hier_nodup hnd hopt _
      (AncC.root (mains_subset hs) (mains_falsy hs)))
    (fun s hs P2 Q2 hsp => by
      simp [renumOne_pid_falsy P2.length (entriesRev 0 P2) s
        (mains_falsy hs), truthyS])
    ?_
  · exact h
  · intro s hs w hw hwns P2 Q2 hsp
    have hsqs : s ∈ qs := mains_subset hs
    rcases hier_parent qs.length hsqs hw with rfl |
      ⟨pp, hppmem, hppqs, hppne, hwpid, _⟩
    · exact absurd rfl hwns
    · obtain ⟨u, t, hbs⟩ := List.append_of_mem hw
      rcases hier_pb qs qs.length s u w t pp.id hbs hwpid hppne with
        ⟨hu, hws⟩ | ⟨a, ha, haid, _⟩
      · exact absurd hws hwns
      · obtain ⟨M1, M2, hM⟩ := List.append_of_mem hs
        have hLsplit : organize qs = (M1.flatMap (hier qs qs.length)
            ++ u) ++ w :: (t ++ M2.flatMap (hier qs qs.length)) := by
          rw [organize, hM, List.flatMap_append, List.flatMap_cons, hbs]
          simp only [List.append_assoc, List.cons_append]
        have hLnd : (organize qs).Nodup := organize_nodup hnd hopt
        have huniq := nodup_split_unique
          (M1.flatMap (hier qs qs.length) ++ u) P2
          (by rw [← hLsplit]; exact hLnd) (by rw [← hLsplit, ← hsp])
        have hmem : w.id = pp.id ∨ ∃ b ∈ P2, b.id = pp.id := by
          refine Or.inr ⟨a, ?_, haid⟩
          rw [← huniq.1]
          exact List.mem_append_right _ ha
        obtain ⟨t2, ht2⟩ := renumOne_pid_hit P2 w pp.id hwpid hppne hmem
        simp [ht2, truthyS, mkId_ne_empty]

/-! ## C3: regrouping the renumbered children by option -/

theorem optsplit (qs : List Question) (ch : Opt → List Question) :
    ∀ (os : List Opt),
      List.Pairwise (fun a b => ¬ (a.id = b.id)) os →
      (∀ o ∈ os, ∀ s ∈ ch o, s.parentOptionId = some o.id) →
      ∀ (i0 : Nat) (m0 : List (String × String)),
      os.flatMap (fun o =>
        (headRenums qs qs.length i0 m0 (os.flatMap ch)).filter
          (fun x => x.parentOptionId = some o.id))
        = headRenums qs qs.length i0 m0 (os.flatMap ch) := by
  intro os
  induction os with
  | nil =>
    intro _ _ i0 m0
    rfl
  | cons o os2 ih =>
    intro hpw hmatch i0 m0
    have hhd := List.pairwise_cons.mp hpw
    have hH : headRenums qs qs.length i0 m0 ((o :: os2).flatMap ch)
        = headRenums qs qs.length i0 m0 (ch o)
          ++ headRenums qs qs.length
              (i0 + ((ch o).flatMap (hier qs qs.length)).length)
              (entriesRev i0 ((ch o).flatMap (hier qs qs.length)) ++ m0)
              (os2.flatMap ch) := by
      rw [List.flatMap_cons, headRenums_append]
    simp only [hH]
    rw [List.flatMap_cons, List.filter_append]
    have h1all : (headRenums qs qs.length i0 m0 (ch o)).filter
        (fun x => x.parentOptionId = some o.id)
        = headRenums qs qs.length i0 m0 (ch o) :=
      hr_filter_all qs qs.length o.id (ch o) i0 m0
        (fun s hs => hmatch o (List.mem_cons_self _ _) s hs)
    have h2none : (headRenums qs qs.length
        (i0 + ((ch o).flatMap (hier qs qs.length)).length)
        (entriesRev i0 ((ch o).flatMap (hier qs qs.length)) ++ m0)
        (os2.flatMap ch)).filter
        (fun x => x.parentOptionId = some o.id) = [] := by
      refine hr_filter_none qs qs.length o.id (os2.flatMap ch) _ _ ?_
      intro s hsm
      obtain ⟨o2, ho2, hs2⟩ := List.mem_flatMap.mp hsm
      rw [hmatch o2 (List.mem_cons_of_mem _ ho2) s hs2]
      intro hcontra
      exact hhd.1 o2 ho2 ((Option.some.injEq _ _).mp hcontra).symm
    rw [h1all, h2none, List.append_nil]
    have hinner : ∀ o2 ∈ os2,
        (headRenums qs qs.length i0 m0 (ch o)
          ++ headRenums qs qs.length
              (i0 + ((ch o).flatMap (hier qs qs.length)).length)
              (entriesRev i0 ((ch o).flatMap (hier qs qs.length)) ++ m0)
              (os2.flatMap ch)).filter
          (fun x => x.parentOptionId = some o2.id)
        = (headRenums qs qs.length
            (i0 + ((ch o).flatMap (hier qs qs.length)).length)
            (entriesRev i0 ((ch o).flatMap (hier qs qs.length)) ++ m0)
            (os2.flatMap ch)).filter
          (fun x => x.parentOptionId = some o2.id) := by
      intro o2 ho2
      rw [List.filter_append]
      have hnone2 : (headRenums qs qs.length i0 m0 (ch o)).filter
          (fun x => x.parentOptionId = some o2.id) = [] := by
        refine hr_filter_none qs qs.length o2.id (ch o) i0 m0 ?_
        intro s hsm
        rw [hmatch o (List.mem_cons_self _ _) s hsm]
        intro hcontra
        exact hhd.1 o2 ho2 ((Option.some.injEq _ _).mp hcontra)
      rw [hnone2, List.nil_append]
    rw [fm_congr hinner]
    rw [ih hhd.2
      (fun o2 ho2 s hs => hmatch o2 (List.mem_cons_of_mem _ ho2) s hs)
      (i0 + ((ch o).flatMap (hier qs qs.length)).length)
      (entriesRev i0 ((ch o).flatMap (hier qs qs.length)) ++ m0)]

/-! ## C3: the hierarchy walk of the renumbered output mirrors the
original walk block by block -/

theorem sim_walk {qs : List Question} (F : Nat)
    (hSIM : ∀ (q : Question) (anc : List Question), AncC qs q anc →
      ∀ (P Q : List Question),
        organize qs = P ++ hier qs qs.length q ++ Q →
        (hier qs qs.length q).length ≤ F →
        hier (renumGo 0 [] (organize qs)) F
            (renumOne P.length (entriesRev 0 P) q)
          = renumGo P.length (entriesRev 0 P) (hier qs qs.length q)) :
    ∀ (CH P0 Q0 : List Question),
      (∀ s ∈ CH, ∃ anc, AncC qs s anc) →
      organize qs = P0 ++ CH.flatMap (hier qs qs.length) ++ Q0 →
      (∀ s ∈ CH, (hier qs qs.length s).length ≤ F) →
      (headRenums qs qs.length P0.length (entriesRev 0 P0) CH).flatMap
          (hier (renumGo 0 [] (organize qs)) F)
        = renumGo P0.length (entriesRev 0 P0)
            (CH.flatMap (hier qs qs.length)) := by
  intro CH
  induction CH with
  | nil =>
    intro P0 Q0 _ _ _
    rfl
  | cons s CH2 ih =>
    intro P0 Q0 hroots hL hsz
    rw [headRenums, List.flatMap_cons, List.flatMap_cons, renumGo_append]
    obtain ⟨anc, hanc⟩ := hroots s (List.mem_cons_self _ _)
    have h1 := hSIM s anc hanc P0
      (CH2.flatMap (hier qs qs.length) ++ Q0)
      (by rw [hL]; simp only [List.flatMap_cons, List.append_assoc])
      (hsz s (List.mem_cons_self _ _))
    rw [h1]
    congr 1
    have hidx : P0.length + (hier qs qs.length s).length
        = (P0 ++ hier qs qs.length s).length := by
      rw [List.length_append]
    have hmap : entriesRev P0.length (hier qs qs.length s)
        ++ entriesRev 0 P0
        = entriesRev 0 (P0 ++ hier qs qs.length s) := by
      rw [entriesRev_append, Nat.zero_add]
    rw [hidx, hmap]
    exact ih (P0 ++ hier qs qs.length s) Q0
      (fun a ha => hroots a (List.mem_cons_of_mem _ ha))
      (by rw [hL]; simp only [List.flatMap_cons, List.append_assoc])
      (fun a ha => hsz a (List.mem_cons_of_mem _ ha))

theorem chMatch_out {qs : List Question}
    (hnd : (qs.map (fun x => x.id)).Nodup)
    (hopt : ∀ x ∈ qs, ((optionsOf x).map (fun o => o.id)).Nodup)
    {q : Question} {anc : List Question} (hc : AncC qs q anc)
    {P Q : List Question}
    (hL : organize qs = P ++ hier qs qs.length q ++ Q) :
    chMatch (renumGo 0 [] (organize qs))
        (renumOne P.length (entriesRev 0 P) q)
      = headRenums qs qs.length (P.length + 1)
          ((q.id, mkId P.length) :: entriesRev 0 P) (chMatch qs q) := by
  have hchar := char_children hnd hopt hc hL
  have hpw : List.Pairwise (fun a b => ¬ (a.id = b.id)) (optionsOf q) :=
    List.pairwise_map.mp (hopt q (ancc_mem hc).1)
  have hopteq := optsplit qs
    (fun o => (childrenOf qs q.id).filter
      (fun s => s.parentOptionId = some o.id))
    (optionsOf q) hpw
    (fun o ho s hs => by simpa using (List.mem_filter.mp hs).2)
    (P.length + 1) ((q.id, mkId P.length) :: entriesRev 0 P)
  have hcheq : (optionsOf q).flatMap
      (fun o => (childrenOf qs q.id).filter
        (fun s => s.parentOptionId = some o.id)) = chMatch qs q := rfl
  simp only [hcheq] at hopteq
  show (optionsOf (renumOne P.length (entriesRev 0 P) q)).flatMap
      (fun o => (childrenOf (renumGo 0 [] (organize qs))
        (renumOne P.length (entriesRev 0 P) q).id).filter
        (fun s => s.parentOptionId = some o.id))
    = headRenums qs qs.length (P.length + 1)
        ((q.id, mkId P.length) :: entriesRev 0 P) (chMatch qs q)
  simp only [renumOne_options, renumOne_id, hchar]
  exact hopteq

theorem sim_hier {qs : List Question}
    (hnd : (qs.map (fun x => x.id)).Nodup)
    (hopt : ∀ x ∈ qs, ((optionsOf x).map (fun o => o.id)).Nodup) :
    ∀ (F : Nat) (q : Question) (anc : List Question), AncC qs q anc →
      ∀ (P Q : List Question),
        organize qs = P ++ hier qs qs.length q ++ Q →
        (hier qs qs.length q).length ≤ F →
        hier (renumGo 0 [] (organize qs)) F
            (renumOne P.length (entriesRev 0 P) q)
          = renumGo P.length (entriesRev 0 P) (hier qs qs.length q) := by
  intro F
  induction F with
  | zero =>
    intro q anc hc P Q hL hsz
    have hpos := hier_length_pos qs qs.length q
    omega
  | succ F ih =>
    intro q anc hc P Q hL hsz
    have hq : q ∈ qs := (ancc_mem hc).1
    have hB := block_unfold hnd hopt hc
    have hcm := chMatch_out hnd hopt hc hL
    rw [hB, renumGo, hier_succ_chMatch, hcm]
    congr 1
    have hidxb : P.length + 1 = (P ++ [q]).length := by
      simp
    have hmapb : (q.id, mkId P.length) :: entriesRev 0 P
        = entriesRev 0 (P ++ [q]) := by
      rw [entriesRev_append, entriesRev, entriesRev, Nat.zero_add,
        List.nil_append, List.singleton_append]
    rw [hidxb, hmapb]
    refine sim_walk F ih (chMatch qs q) (P ++ [q]) Q ?_ ?_ ?_
    · intro s hs
      have hsc := (mem_chMatch_elim hs).1
      exact ⟨q :: anc, AncC.step hc (childrenOf_subset hsc)
        (childrenOf_parent hsc) (childrenOf_truthy hsc)⟩
    · rw [hL, hB]
      simp only [List.append_assoc, List.cons_append,
        List.singleton_append, List.nil_append]
    · intro s hs
      have hle := flatMap_len_le (hier qs qs.length) (chMatch qs q) s hs
      have hlen : (hier qs qs.length q).length
          = ((chMatch qs q).flatMap (hier qs qs.length)).length + 1 := by
        rw [hB]
        simp
      omega

theorem organize_out {qs : List Question}
    (hnd : (qs.map (fun x => x.id)).Nodup)
    (hopt : ∀ x ∈ qs, ((optionsOf x).map (fun o => o.id)).Nodup) :
    organize (renumGo 0 [] (organize qs))
      = renumGo 0 [] (organize qs) := by
  have hcm := char_mains hnd hopt
  show (mains (renumGo 0 [] (organize qs))).flatMap
      (hier (renumGo 0 [] (organize qs))
        (renumGo 0 [] (organize qs)).length)
    = renumGo 0 [] (organize qs)
  rw [hcm, renumGo_length]
  exact sim_walk (organize qs).length
    (fun q anc hc P Q hL hsz =>
      sim_hier hnd hopt (organize qs).length q anc hc P Q hL hsz)
    (mains qs) [] []
    (fun s hs => ⟨[], AncC.root (mains_subset hs) (mains_falsy hs)⟩)
    (by rw [organize]; simp only [List.nil_append, List.append_nil])
    (fun s hs => by
      have hle := flatMap_len_le (hier qs qs.length) (mains qs) s hs
      rw [organize]
      exact hle)

/-! ## C3: renumbering an already canonical sequence changes nothing -/

theorem question_fields_eq (a b : Question)
    (h1 : a.id = b.id) (h2 : a.text = b.text) (h3 : a.type = b.type)
    (h4 : a.required = b.required) (h5 : a.options = b.options)
    (h6 : a.includeInPowerBI = b.includeInPowerBI)
    (h7 : a.powerBIFieldName = b.powerBIFieldName)
    (h8 : a.parentId = b.parentId)
    (h9 : a.parentOptionId = b.parentOptionId) : a = b := by
  cases a
  cases b
  simp_all

theorem renumOne_eq_self (i : Nat) (m : List (String × String))
    (q : Question) (hid : mkId i = q.id)
    (hpid : (renumOne i m q).parentId = q.parentId) :
    renumOne i m q = q :=
  question_fields_eq _ _ hid rfl rfl rfl rfl rfl rfl hpid rfl

theorem renumGo_fix :
    ∀ (A : List Question) (k0 : Nat) (m : List (String × String)),
      (∀ e ∈ m, e.2 = e.1) →
      (∀ j, j < k0 → ((mkId j, mkId j) : String × String) ∈ m) →
      (∀ (A1 : List Question) (w : Question) (A2 : List Question),
        A = A1 ++ w :: A2 → w.id = mkId (k0 + A1.length) ∧
        (w.parentId = none ∨
          ∃ j, j ≤ k0 + A1.length ∧ w.parentId = some (mkId j))) →
      renumGo k0 m A = A := by
  intro A
  induction A with
  | nil => intro k0 m _ _ _; rfl
  | cons a A ih =>
    intro k0 m hval hmem hpos
    have hhead := hpos [] a A rfl
    have haid : a.id = mkId k0 := by simpa using hhead.1
    have hone : renumOne k0 m a = a := by
      refine renumOne_eq_self k0 m a haid.symm ?_
      rcases hhead.2 with hnone | ⟨j, hj, hsome⟩
      · rw [hnone]
        exact renumOne_pid_falsy _ _ _ (by rw [hnone]; rfl)
      · have hj2 : j ≤ k0 := by simpa using hj
        rw [hsome]
        have ht : truthyS a.parentId = true := by
          rw [hsome]
          simp [truthyS, mkId_ne_empty]
        show (if truthyS a.parentId then
            lookupS ((a.id, mkId k0) :: m) (a.parentId.getD "")
            else none) = some (mkId j)
        rw [if_pos ht, hsome]
        simp only [Option.getD_some]
        rw [lookupS_cons]
        rcases Nat.lt_or_ge j k0 with hlt | hge
        · rw [if_neg]
          · have hsomem : (m.find? (fun p2 => p2.1 = mkId j)).isSome := by
              rw [List.find?_isSome]
              exact ⟨(mkId j, mkId j), hmem j hlt, by simp⟩
            cases hfind : m.find? (fun p2 => p2.1 = mkId j) with
            | none =>
              rw [hfind] at hsomem
              simp at hsomem
            | some e =>
              have hkey : e.1 = mkId j := by
                have hfs := List.find?_some hfind
                simpa using hfs
              have hv := hval e (List.mem_of_find?_eq_some hfind)
              unfold lookupS
              rw [hfind]
              simp [hv, hkey]
          · rw [haid]
            intro hcontra
            have hji := mkId_inj hcontra
            omega
        · have hjk : j = k0 := by omega
          rw [if_pos]
          · rw [hjk]
          · rw [haid, hjk]
    rw [renumGo, hone, haid]
    congr 1
    apply ih (k0 + 1) ((mkId k0, mkId k0) :: m)
    · intro e he
      rcases List.mem_cons.mp he with rfl | he2
      · rfl
      · exact hval e he2
    · intro j hj
      rcases Nat.lt_succ_iff_lt_or_eq.mp hj with h | rfl
      · exact List.mem_cons_of_mem _ (hmem j h)
      · exact List.mem_cons_self _ _
    · intro A1 w A2 hsplit
      have h2 := hpos (a :: A1) w A2 (by rw [hsplit, List.cons_append])
      have hidx3 : k0 + (a :: A1).length = k0 + 1 + A1.length := by
        simp only [List.length_cons]
        omega
      constructor
      · have h21 := h2.1
        rw [hidx3] at h21
        exact h21
      · rcases h2.2 with hnone | ⟨j, hj, hs⟩
        · exact Or.inl hnone
        · refine Or.inr ⟨j, ?_, hs⟩
          rw [hidx3] at hj
          exact hj

theorem out_pos (L : List Question) :
    ∀ (A1 : List Question) (w : Question) (A2 : List Question),
      renumGo 0 [] L = A1 ++ w :: A2 →
      w.id = mkId A1.length ∧
      (w.parentId = none ∨
        ∃ j, j ≤ A1.length ∧ w.parentId = some (mkId j)) := by
  intro A1 w A2 hsplit
  obtain ⟨T1, w0, T2, hT, hl1, hval⟩ :=
    renumGo_split L 0 [] A1 w A2 hsplit
  have hlen : A1.length = T1.length := by
    rw [hl1, renumGo_length]
  rw [Nat.zero_add, List.append_nil] at hval
  refine ⟨?_, ?_⟩
  · rw [hval, renumOne_id, hlen]
  · cases hp : (renumOne T1.length (entriesRev 0 T1) w0).parentId with
    | none => exact Or.inl (by rw [hval]; exact hp)
    | some r =>
      rcases renumOne_pid_cases T1 w0 r hp with ⟨he, _⟩ |
        ⟨A3, a3, B3, hsp3, he, _⟩
      · refine Or.inr ⟨T1.length, by omega, by rw [hval, hp, he]⟩
      · refine Or.inr ⟨A3.length, ?_, by rw [hval, hp, he]⟩
        have hlt : A3.length < T1.length := by
          rw [hsp3]
          simp only [List.length_append, List.length_cons]
          omega
        omega

theorem renum_out_fix (L : List Question) :
    renumGo 0 [] (renumGo 0 [] L) = renumGo 0 [] L := by
  apply renumGo_fix (renumGo 0 [] L) 0 []
  · intro e he
    exact absurd he (by simp)
  · intro j hj
    exact absurd hj (by omega)
  · intro A1 w A2 hsplit
    have h := out_pos L A1 w A2 hsplit
    refine ⟨by simpa using h.1, ?_⟩
    rcases h.2 with h2 | ⟨j, hj, h3⟩
    · exact Or.inl h2
    · exact Or.inr ⟨j, by omega, h3⟩

/-! ## C3: idempotence of the linearizer -/

/-- C3 counterexample: reorganizeQuestions is not idempotent on arbitrary
inputs.  With a select question carrying two options that share the id o1
and one conditional child keyed to o1, the child and its subtree are
emitted once per duplicate option, so the second application emits five
questions where the first emitted three.  With two questions sharing the
id a (the second its own parent by id), the second application drops the
self-parented question, shrinking the sequence from two questions to
one. -/
theorem C3_idem_cex :
    ¬ (reorganizeQuestions (reorganizeQuestions [dupP, dupD])
      = reorganizeQuestions [dupP, dupD]) ∧
    ¬ (reorganizeQuestions (reorganizeQuestions [dupX, dupC])
      = reorganizeQuestions [dupX, dupC]) :=
  ⟨by decide, by decide⟩

/-- C3 (amended): the linearizer is idempotent on every working set whose
question ids are pairwise distinct and whose per-question option ids are
pairwise distinct: a second application of reorganizeQuestions to its own
output returns that output unchanged — same ordered sequence, same
canonical ids q001, q002, ..., same parentId and parentOptionId
fields. -/
theorem C3_idem_amended (qs : List Question)
    (hnd : (qs.map (fun x => x.id)).Nodup)
    (hopt : ∀ x ∈ qs, ((optionsOf x).map (fun o => o.id)).Nodup) :
    reorganizeQuestions (reorganizeQuestions qs)
      = reorganizeQuestions qs := by
  show renumGo 0 [] (organize (renumGo 0 [] (organize qs)))
    = renumGo 0 [] (organize qs)
  rw [organize_out hnd hopt]
  exact renum_out_fix (organize qs)

/-- C3 witness: the amended idempotence theorem applied to the concrete
three-question chain of the running example, with both Nodup hypotheses
checked by evaluation. -/
theorem C3_idem_amended_w :
    reorganizeQuestions (reorganizeQuestions exQs)
      = reorganizeQuestions exQs :=
  C3_idem_amended exQs (by decide) (by decide)

end Pantias
